import Mathlib

/-!
Verification development for `src/flashcard_generator.py`.

The Python source is shallowly embedded below.  Strings are modelled through
their character lists; Python machine integers are modelled as `Nat`
(all the quantities involved — pixel widths, character counts, lengths — are
non-negative in the source); code that can raise an exception
(`ZeroDivisionError`, `textwrap`'s `ValueError` for a non-positive width) is
modelled with `Option`, `none` standing for the raised exception.

The float expression `int(max_width / (avg_char_width * 0.9))` is modelled by
its exact rational value `⌊10 * max_width / (9 * avg_char_width)⌋`; at the
concrete inputs used in theorems below the double-precision evaluation agrees
with the exact one.

`textwrap.wrap(p, width)` (Python 3 defaults: `replace_whitespace=True`,
`expand_tabs=True`, `drop_whitespace=True`, `break_long_words=True`) is
modelled faithfully for text that does not contain the hyphen character
U+002D: every branch of Python's `break_on_hyphens` machinery (the
hyphenated-word and em-dash alternatives of `wordsep_re`, and the
`rfind('-')` in `_handle_long_word`) requires a hyphen, so on hyphen-free
input the chunker reduces to maximal runs of whitespace / non-whitespace,
which is what `splitChunks` computes.  Theorems whose truth depends on the
word-splitting behaviour carry an explicit no-hyphen hypothesis.
-/

namespace Flashcards

/-- Python whitespace (`re` class `\s`, `str.strip`, `string.whitespace`)
restricted to ASCII, which is the alphabet the flashcard text uses. -/
def isPyWs (c : Char) : Bool :=
  c = ' ' || c = '\t' || c = '\n' || c = '\x0b' || c = '\x0c' || c = '\r'

/-- The backquote character (U+0060), one of the three markdown markers
removed by `clean_text`'s `re.sub(r'[*_`]', '', text)`. -/
def backquote : Char := Char.ofNat 96

/-! ## clean_text (src lines 90–94) -/

/-- Model of `re.sub(r'[*_`]', '', text)`: delete the three markdown marker chars. -/
def stripMarkdown (l : List Char) : List Char :=
  l.filter (fun c => !(c = '*' || c = '_' || c = backquote))

/-- Worker for `re.sub(r'\s+', ' ', text)`: the flag records whether the
previous character was whitespace (i.e. we are inside a run that has already
emitted its single replacement space). -/
def collapseWsGo : Bool → List Char → List Char
  | _, [] => []
  | afterWs, c :: rest =>
    if isPyWs c then
      (if afterWs then [] else [' ']) ++ collapseWsGo true rest
    else c :: collapseWsGo false rest

/-- Model of `re.sub(r'\s+', ' ', text)`: each maximal whitespace run becomes one
space. -/
def collapseWs (l : List Char) : List Char := collapseWsGo false l

/-- Python `str.strip()`: remove leading and trailing whitespace. -/
def pyStrip (l : List Char) : List Char :=
  ((l.dropWhile isPyWs).reverse.dropWhile isPyWs).reverse

/-- Model of `clean_text(text)` from src lines 90–94.  The argument is an
`Option String` because the Python function is called with values that may be
`None`; `if not text: return ""` covers both `None` and `""`. -/
def clean_text (text : Option String) : String :=
  match text with
  | none => ""
  | some s =>
    if s = "" then ""
    else String.mk (pyStrip (collapseWs (stripMarkdown s.data)))

/-! ## Records and the batch selector (src lines 58–88) -/

/-- One record of the question bank (a JSON object accessed with
`c['id']` / `c.get(...)`).  Optional fields model keys that may be absent. -/
structure Card where
  id : String
  subject : Option String := none
  question : Option String := none
  answer : Option String := none
  explanation : Option String := none
  image : Option String := none
deriving DecidableEq, Repr

/-- Python truthiness of `c.get('image')`: `None` and `""` are falsy. -/
def imageTruthy (c : Card) : Bool :=
  match c.image with
  | none => false
  | some s => s != ""

/-- Model of `len(c.get('explanation', ''))`. -/
def explanationLen (c : Card) : Nat := (c.explanation.getD "").length

/-- The initial `available` pool of `fetch_batch_questions` (src lines
68–74): unused, no image, explanation shorter than 600 characters. -/
def fetch_pool_stage1 (all_cards : List Card) (used_ids : List String) :
    List Card :=
  all_cards.filter (fun c =>
    !(used_ids.contains c.id) && !(imageTruthy c) &&
      decide (explanationLen c < 600))

/-- The pool after the first relaxation (src lines 76–82): if fewer than
`count` remain, drop the explanation-length ceiling. -/
def fetch_pool_stage2 (all_cards : List Card) (used_ids : List String)
    (count : Nat) : List Card :=
  if (fetch_pool_stage1 all_cards used_ids).length < count then
    all_cards.filter (fun c => !(used_ids.contains c.id) && !(imageTruthy c))
  else fetch_pool_stage1 all_cards used_ids

/-- The final pool (src lines 84–86): if the relaxed pool is empty, reset
the history filter, keeping only the no-image condition. -/
def fetch_pool (all_cards : List Card) (used_ids : List String) (count : Nat) :
    List Card :=
  if (fetch_pool_stage2 all_cards used_ids count).isEmpty then
    all_cards.filter (fun c => !(imageTruthy c))
  else fetch_pool_stage2 all_cards used_ids count

/-- Because `random.sample(available, min(len(available), count))` is nondeterministic,
the selector is therefore parametrised by the sampling function. -/
def fetch_batch_questions (sample : List Card → Nat → List Card)
    (all_cards : List Card) (used_ids : List String) (count : Nat) :
    List Card :=
  let available := fetch_pool all_cards used_ids count
  sample available (min available.length count)

/-- What `random.sample(pop, k)` guarantees when `k ≤ len(pop)`: the result
has length `k` and draws its elements from `pop`. -/
def ValidSampler (sample : List Card → Nat → List Card) : Prop :=
  ∀ pop k, k ≤ pop.length →
    (sample pop k).length = k ∧ ∀ c ∈ sample pop k, c ∈ pop

/-- A concrete sampler (take the first `k`), one possible outcome of
`random.sample`. -/
def takeSample (pop : List Card) (k : Nat) : List Card := pop.take k

/-! ## Fonts and the character-budget estimate (src lines 123–129) -/

/-- A PIL font handle, reduced to the three `getbbox` projections the source
reads: `font.getbbox(s)[0]`, `[2]` and `[3]`.  `get_font` performs file
system probing and is modelled as an external parameter producing such
handles. -/
structure Font where
  bbox0 : String → Nat
  bbox2 : String → Nat
  bbox3 : String → Nat

/-- Model of `max_chars = int(max_width / (avg_char_width * 0.9))` (src line 129),
as the exact rational value truncated to an integer. -/
def maxCharsFor (max_width avg_char_width : Nat) : Nat :=
  (10 * max_width) / (9 * avg_char_width)

/-! ## textwrap.wrap, modelled for hyphen-free text -/

/-- Model of `str.expandtabs(8)` (performed by `textwrap`'s `_munge_whitespace`):
each tab becomes spaces up to the next multiple of 8; the column counter
resets after a newline or carriage return. -/
def expandTabsGo : Nat → List Char → List Char
  | _, [] => []
  | col, c :: rest =>
    if c = '\t' then
      List.replicate (8 - col % 8) ' ' ++ expandTabsGo (col + (8 - col % 8)) rest
    else if c = '\n' || c = '\r' then c :: expandTabsGo 0 rest
    else c :: expandTabsGo (col + 1) rest

/-- Model of `_munge_whitespace`: expand tabs, then translate every whitespace
character to a plain space. -/
def munge (l : List Char) : List Char :=
  (expandTabsGo 0 l).map (fun c => if isPyWs c then ' ' else c)

/-- One step of grouping a character onto the chunk list, keeping maximal
runs of equal whitespace-class together. -/
def consChunk (c : Char) (acc : List (List Char)) : List (List Char) :=
  match acc with
  | [] => [[c]]
  | chunk :: rest =>
    match chunk with
    | [] => [c] :: rest
    | d :: _ =>
      if isPyWs c = isPyWs d then (c :: chunk) :: rest
      else [c] :: chunk :: rest

/-- Model of `TextWrapper._split` on hyphen-free text: the chunk list of maximal
whitespace / non-whitespace runs. -/
def splitChunks (l : List Char) : List (List Char) := l.foldr consChunk []

/-- Model of `chunk.strip() == ''`: the chunk is empty or all whitespace. -/
def isWsChunk (c : List Char) : Bool := c.all isPyWs

/-- The word sequence of a text: its maximal non-whitespace runs. -/
def pyWordsL (l : List Char) : List (List Char) :=
  (splitChunks l).filter (fun c => !isWsChunk c)

/-- The word sequence of a string. -/
def pyWordsS (s : String) : List String := (pyWordsL s.data).map String.mk

/-- Model of the `_wrap_chunks` step that drops a leading whitespace chunk when at least one line
has been produced already (`drop_whitespace` with `lines` non-empty). -/
def dropInitialWs (hasLines : Bool) (cs : List (List Char)) :
    List (List Char) :=
  match cs with
  | [] => []
  | c :: rest => if hasLines && isWsChunk c then rest else c :: rest

/-- The greedy fill loop of `_wrap_chunks`: pop chunks onto the current line
while they fit `width`.  Returns (taken chunks, remaining chunks). -/
def fillGreedy (w : Nat) : Nat → List (List Char) → List (List Char) × List (List Char)
  | _, [] => ([], [])
  | curLen, c :: rest =>
    if curLen + c.length ≤ w then
      let p := fillGreedy w (curLen + c.length) rest
      (c :: p.1, p.2)
    else ([], c :: rest)

/-- Model of the `_wrap_chunks` step that drops the single trailing chunk of the current line if it
is all whitespace (`drop_whitespace`). -/
def dropLastWs (line : List (List Char)) : List (List Char) :=
  match line.getLast? with
  | none => line
  | some c => if isWsChunk c then line.dropLast else line

/-- Model of `_handle_long_word` (with `break_long_words=True`; the
`break_on_hyphens` refinement is inert on hyphen-free text): when the next
chunk is longer than the width, move its first `space_left` characters onto
the current line. -/
def handleRest (w : Nat) (taken : List (List Char)) :
    List (List Char) → List (List Char) × List (List Char)
  | [] => (taken, [])
  | c :: rs =>
    if w < c.length then
      let spaceLeft := if w < 1 then 1 else w - (taken.map List.length).sum
      (taken ++ [c.take spaceLeft], c.drop spaceLeft :: rs)
    else (taken, c :: rs)

/-- The body of one `_wrap_chunks` iteration after the initial whitespace
drop: greedy fill, then long-word handling.  Returns (current line chunks,
remaining chunks). -/
def handleStep (w : Nat) (cs1 : List (List Char)) :
    List (List Char) × List (List Char) :=
  handleRest w (fillGreedy w 0 cs1).1 (fillGreedy w 0 cs1).2

/-- One full iteration of the `while chunks:` loop of `_wrap_chunks`:
initial whitespace drop, fill, long-word handling, trailing whitespace drop;
emits the joined line if the current line is non-empty. -/
def wrapStep (w : Nat) (hasLines : Bool) (cs : List (List Char)) :
    Option (List Char) × List (List Char) :=
  let hl := handleStep w (dropInitialWs hasLines cs)
  let line := dropLastWs hl.1
  (if line.isEmpty then none else some line.flatten, hl.2)

/-- Termination measure: total characters plus number of chunks. -/
def chunkMeasure (cs : List (List Char)) : Nat :=
  (cs.map (fun c => c.length + 1)).sum

/-- Fuel-indexed `_wrap_chunks` loop; `wrapChunks` supplies sufficient fuel. -/
def wrapChunksFuel (w : Nat) : Nat → Bool → List (List Char) → List (List Char)
  | 0, _, _ => []
  | _ + 1, _, [] => []
  | fuel + 1, hasLines, c :: cs =>
    let s := wrapStep w hasLines (c :: cs)
    match s.1 with
    | some line => line :: wrapChunksFuel w fuel true s.2
    | none => wrapChunksFuel w fuel hasLines s.2

/-- Model of `TextWrapper._wrap_chunks(chunks)` for a positive width. -/
def wrapChunks (w : Nat) (cs : List (List Char)) : List (List Char) :=
  wrapChunksFuel w (chunkMeasure cs + 1) false cs

/-- Model of `text.split('\n')` (src line 131). -/
def splitOnNl (l : List Char) : List (List Char) :=
  l.foldr (fun c acc =>
    if c = '\n' then [] :: acc
    else
      match acc with
      | [] => [[c]]
      | a :: as => (c :: a) :: as) [[]]

/-- Model of `wrap_text(text, font, max_width)` from src lines 123–148.
`none` models the exceptions the Python code can raise for non-empty text:
`ZeroDivisionError` when `font.getbbox("x")[2] == 0`, and `textwrap`'s
`ValueError` when the computed `max_chars` is not positive.  The final
per-line visual width check appends the line unchanged on both branches
(src lines 139–147), which the inner `if` mirrors. -/
def wrap_text (text : String) (font : Font) (max_width : Nat) :
    Option (List String) :=
  if text = "" then some []
  else
    let avg_char_width := font.bbox2 "x"
    if avg_char_width = 0 then none
    else
      let max_chars := maxCharsFor max_width avg_char_width
      if max_chars = 0 then none
      else
        some ((splitOnNl text.data).flatMap (fun p =>
          (wrapChunks max_chars (splitChunks (munge p))).map (fun lineChars =>
            let line := String.mk lineChars
            if font.bbox2 line - font.bbox0 line ≤ max_width then line
            else line)))

/-- Joining wrapped lines with single spaces reinserted, the spec's
reconstruction operation. -/
def joinSp : List (List Char) → List Char
  | [] => []
  | [p] => p
  | p :: q :: ps => p ++ ' ' :: joinSp (q :: ps)

/-- String-level join with single spaces. -/
def joinLinesSp (ls : List String) : String :=
  String.mk (joinSp (ls.map String.data))

/-! ## Card rendering (src lines 267–420): the text layout fragments -/

/-- Canvas width (src line 37). -/
def canvasW : Nat := 1080
/-- Canvas height (src line 37). -/
def canvasH : Nat := 1350
/-- Glass card content box `(x1, y1, x2, y2)` from `draw_glass_card_bg`
(src lines 239–265): margins 60 left/right, 220 top, 180 bottom. -/
def contentX1 : Nat := 60
def contentY1 : Nat := 220
def contentX2 : Nat := canvasW - 60
def contentY2 : Nat := canvasH - 180
/-- Value of `card_w = cx2 - cx1`. -/
def card_w : Nat := contentX2 - contentX1
/-- Value of `card_h = cy2 - cy1`. -/
def card_h : Nat := contentY2 - contentY1

/-- The cleaned question of the front face (src line 282). -/
def front_question (card : Card) : String :=
  clean_text (some (card.question.getD "Question?"))

/-- The front face's dynamic font size ladder (src lines 285–287). -/
def front_font_size (card : Card) : Nat :=
  let q := front_question card
  if 200 < q.length then 48 else if 100 < q.length then 58 else 68

/-- The question lines laid out by `render_card_front` (src line 292).
The drawing loop (src lines 301–311) draws every one of these lines; it
contains no clipping or truncation test. -/
def render_card_front_lines (gf : Nat → String → Font) (card : Card) :
    Option (List String) :=
  wrap_text (front_question card) (gf (front_font_size card) "Bold")
    (card_w - 140)

/-- The cleaned answer of the back face (src line 379). -/
def back_answer (card : Card) : String :=
  clean_text (some (card.answer.getD "Answer"))

/-- The wrapped answer lines of the back face (src line 383). -/
def back_answer_lines (gf : Nat → String → Font) (card : Card) :
    Option (List String) :=
  wrap_text (back_answer card) (gf 54 "Bold") (card_w - 120)

/-- The cleaned explanation of the back face (src line 398). -/
def back_exploration (card : Card) : String :=
  clean_text (some (card.explanation.getD ""))

/-- The explanation font size ladder (src lines 404–406). -/
def back_expl_font_size (card : Card) : Nat :=
  let e := back_exploration card
  if 400 < e.length then 28 else if 200 < e.length then 32 else 38

/-- Value of `expl_y_start = ay2 + 50` where `ay2 = cy1 + ans_h`, `ans_h = 240`
(src lines 343, 349, 393). -/
def expl_y_start : Nat := contentY1 + 240 + 50

/-- The explanation drawing loop of `render_card_back` (src lines 415–418):
draw a line at `y` unless `y + line_h` passes `bound = cy2 - 40`, in which
case the loop breaks. -/
def drawLoop (bound line_h : Nat) : Nat → List String → List (String × Nat)
  | _, [] => []
  | y, l :: ls =>
    if bound < y + line_h then []
    else (l, y) :: drawLoop bound line_h (y + line_h) ls

/-- The text content actually drawn by `render_card_back` (src lines
327–420): the clamped answer lines (at most the first 3, src line 385, all
of which the loop at src lines 388–390 draws), and the explanation lines
that survive the clipping test, with their vertical positions. -/
def render_card_back_text (gf : Nat → String → Font) (card : Card) :
    Option (List String × List (String × Nat)) :=
  match back_answer_lines gf card with
  | none => none
  | some ansLines =>
    let ansDrawn := if 3 < ansLines.length then ansLines.take 3 else ansLines
    let font_expl := gf (back_expl_font_size card) "Regular"
    match wrap_text (back_exploration card) font_expl (card_w - 120) with
    | none => none
    | some explLines =>
      let line_h := font_expl.bbox3 "Ay" + 12
      some (ansDrawn, drawLoop (contentY2 - 40) line_h (expl_y_start + 50) explLines)

/-- The explanation line pitch used on the back face (src line 413). -/
def back_expl_line_h (gf : Nat → String → Font) (card : Card) : Nat :=
  (gf (back_expl_font_size card) "Regular").bbox3 "Ay" + 12

/-! ## Concrete fonts and cards used in counterexamples and witnesses -/

/-- A monospace-like font handle: every glyph 10 pixels wide, bbox height
20. -/
def exFont : Font := ⟨fun _ => 0, fun s => 10 * s.length, fun _ => 20⟩

/-- A very wide monospace font (900 pixels per glyph), giving character
budget 1 at width 820. -/
def wideFont : Font := ⟨fun _ => 0, fun s => 900 * s.length, fun _ => 20⟩

/-- A medium-wide monospace font (200 pixels per glyph), giving character
budget 4 at width 840. -/
def midFont : Font := ⟨fun _ => 0, fun s => 200 * s.length, fun _ => 20⟩

/-- A font resolver producing `exFont` at every size and variant. -/
def exGf : Nat → String → Font := fun _ _ => exFont
/-- A font resolver producing `wideFont` at every size and variant. -/
def wideGf : Nat → String → Font := fun _ _ => wideFont
/-- A font resolver producing `midFont` at every size and variant. -/
def midGf : Nat → String → Font := fun _ _ => midFont

/-- A question of 60 one-letter words: wraps to 60 lines under `wideGf`. -/
def longQuestion : String :=
  String.mk (joinSp (List.replicate 60 ['a']))

/-- Card with the 60-word question. -/
def longQCard : Card := { id := "q1", question := some longQuestion }

/-- Card whose answer wraps to 5 lines under `midGf`. -/
def fiveLineAnswerCard : Card :=
  { id := "q3", answer := some "aa bb cc dd ee", explanation := some "x" }

/-- Small card used for back-face witnesses. -/
def smallBackCard : Card :=
  { id := "q2", answer := some "short answer",
    explanation := some "some deep insight here" }

end Flashcards

namespace Flashcards

/-! ## Generic list helpers -/

lemma isEmpty_false_of_ne_nil {α : Type} {l : List α} (h : l ≠ []) :
    l.isEmpty = false := by
  cases l with
  | nil => exact absurd rfl h
  | cons a t => rfl

/-! ## Claims C4, C8, C9: the batch selector -/

lemma mem_stage1 {all : List Card} {used : List String} {c : Card}
    (h : c ∈ fetch_pool_stage1 all used) :
    used.contains c.id = false ∧ imageTruthy c = false := by
  have h2 := (List.mem_filter.mp h).2
  simp only [Bool.and_eq_true, Bool.not_eq_true'] at h2
  exact ⟨h2.1.1, h2.1.2⟩

lemma mem_stage2 {all : List Card} {used : List String} {count : Nat}
    {c : Card} (h : c ∈ fetch_pool_stage2 all used count) :
    used.contains c.id = false ∧ imageTruthy c = false := by
  unfold fetch_pool_stage2 at h
  split at h
  · have h2 := (List.mem_filter.mp h).2
    simp only [Bool.and_eq_true, Bool.not_eq_true'] at h2
    exact h2
  · exact mem_stage1 h

lemma mem_fetch_pool_not_image {all : List Card} {used : List String}
    {count : Nat} {c : Card} (h : c ∈ fetch_pool all used count) :
    imageTruthy c = false := by
  unfold fetch_pool at h
  split at h
  · have h2 := (List.mem_filter.mp h).2
    simpa using h2
  · exact (mem_stage2 h).2

/-- C9: no relaxation step of the selector ever lets through a record with a
truthy `image` field. -/
theorem fetch_never_selects_image_cards
    (sample : List Card → Nat → List Card) (hs : ValidSampler sample)
    (all_cards : List Card) (used_ids : List String) (count : Nat) (c : Card)
    (hc : c ∈ fetch_batch_questions sample all_cards used_ids count) :
    imageTruthy c = false := by
  unfold fetch_batch_questions at hc
  have hk : min (fetch_pool all_cards used_ids count).length count
      ≤ (fetch_pool all_cards used_ids count).length := Nat.min_le_left _ _
  exact mem_fetch_pool_not_image ((hs _ _ hk).2 c hc)

/-- Witness for C9 at a concrete bank, history and sampler. -/
theorem fetch_never_selects_image_cards_witness :
    imageTruthy { id := "q1" } = false := by
  have hvalid : ValidSampler takeSample := by
    intro pop k hk
    refine ⟨?_, ?_⟩
    · simpa [takeSample] using Nat.min_eq_left hk
    · intro c hc
      exact (List.take_sublist k pop).subset hc
  exact fetch_never_selects_image_cards takeSample hvalid
    [{ id := "q1" }] [] 5 { id := "q1" } (by decide)

/-- C8: when the length-relaxed pool (unused, no image) is non-empty — i.e.
exactly when the final history-reset branch is not taken — every selected
record's id is absent from the history. -/
theorem fetch_respects_history_without_reset
    (sample : List Card → Nat → List Card) (hs : ValidSampler sample)
    (all_cards : List Card) (used_ids : List String) (count : Nat)
    (hne : all_cards.filter
      (fun c => !(used_ids.contains c.id) && !(imageTruthy c)) ≠ []) :
    ∀ c ∈ fetch_batch_questions sample all_cards used_ids count,
      used_ids.contains c.id = false := by
  intro c hc
  unfold fetch_batch_questions at hc
  by_cases h2 : fetch_pool_stage2 all_cards used_ids count = []
  · -- The reset branch can be reached despite `hne` only when `count = 0`,
    -- and then the requested sample is empty, contradicting `hc`.
    have hcount : count = 0 := by
      unfold fetch_pool_stage2 at h2
      split at h2
      · exact absurd h2 hne
      · rename_i hge
        rw [h2] at hge
        simp only [List.length_nil] at hge
        omega
    subst hcount
    have hbatch : sample (fetch_pool all_cards used_ids 0)
        (min (fetch_pool all_cards used_ids 0).length 0) = [] := by
      apply List.eq_nil_of_length_eq_zero
      rw [(hs _ _ (Nat.min_le_left _ _)).1, Nat.min_zero]
    rw [hbatch] at hc
    exact absurd hc (List.not_mem_nil c)
  · have hpool : fetch_pool all_cards used_ids count
        = fetch_pool_stage2 all_cards used_ids count := by
      unfold fetch_pool
      simp [isEmpty_false_of_ne_nil h2]
    have hk : min (fetch_pool all_cards used_ids count).length count
        ≤ (fetch_pool all_cards used_ids count).length := Nat.min_le_left _ _
    have hmem := (hs _ _ hk).2 c hc
    rw [hpool] at hmem
    exact (mem_stage2 hmem).1

/-- Witness for C8: with history `["zz"]` and a one-card bank, the selected
card's id is not in the history. -/
theorem fetch_respects_history_witness :
    (["zz"] : List String).contains "q1" = false := by
  have hvalid : ValidSampler takeSample := by
    intro pop k hk
    refine ⟨?_, ?_⟩
    · simpa [takeSample] using Nat.min_eq_left hk
    · intro c hc
      exact (List.take_sublist k pop).subset hc
  exact fetch_respects_history_without_reset takeSample hvalid
    [{ id := "q1" }] ["zz"] 1 (by decide) { id := "q1" } (by decide)

/-- C4 (amended): the batch has length `min |pool| count` — the requested
count is reached only when the relaxed pool is large enough — and the batch
is non-empty whenever the count is positive and some record without an image
exists. -/
theorem fetch_batch_length_eq_min
    (sample : List Card → Nat → List Card) (hs : ValidSampler sample)
    (all_cards : List Card) (used_ids : List String) (count : Nat) :
    (fetch_batch_questions sample all_cards used_ids count).length
      = min (fetch_pool all_cards used_ids count).length count ∧
    (0 < count → (∃ c ∈ all_cards, imageTruthy c = false) →
      fetch_batch_questions sample all_cards used_ids count ≠ []) := by
  constructor
  · unfold fetch_batch_questions
    exact (hs _ _ (Nat.min_le_left _ _)).1
  · rintro hcount ⟨c, hcmem, hcimg⟩
    have hpool : fetch_pool all_cards used_ids count ≠ [] := by
      unfold fetch_pool
      split
      · intro h0
        have hmem : c ∈ all_cards.filter (fun c => !(imageTruthy c)) :=
          List.mem_filter.mpr ⟨hcmem, by simp [hcimg]⟩
        rw [h0] at hmem
        exact absurd hmem (List.not_mem_nil c)
      · rename_i hni
        intro h0
        rw [h0] at hni
        simp at hni
    intro h0
    have hlen := (hs (fetch_pool all_cards used_ids count) _
      (Nat.min_le_left (fetch_pool all_cards used_ids count).length count)).1
    unfold fetch_batch_questions at h0
    rw [h0] at hlen
    simp only [List.length_nil] at hlen
    have hposl : 0 < (fetch_pool all_cards used_ids count).length :=
      List.length_pos.mpr hpool
    omega

/-- Witness for C4 (amended) at a concrete bank and sampler. -/
theorem fetch_batch_length_eq_min_witness :
    (fetch_batch_questions takeSample [{ id := "q1" }] [] 5).length
      = min (fetch_pool [{ id := "q1" }] [] 5).length 5 ∧
    (0 < 5 → (∃ c ∈ [{ id := "q1" } ], imageTruthy c = false) →
      fetch_batch_questions takeSample [{ id := "q1" }] [] 5 ≠ []) := by
  have hvalid : ValidSampler takeSample := by
    intro pop k hk
    refine ⟨?_, ?_⟩
    · simpa [takeSample] using Nat.min_eq_left hk
    · intro c hc
      exact (List.take_sublist k pop).subset hc
  exact fetch_batch_length_eq_min takeSample hvalid [{ id := "q1" }] [] 5

/-- Counterexample to C4 as stated: a bank with one (image-free) record and
requested count 5 yields a batch of length 1, not 5; relaxation cannot
manufacture records. -/
theorem fetch_batch_size_cex :
    (fetch_batch_questions takeSample [{ id := "q1" }] [] 5).length = 1 ∧
      (1 : Nat) ≠ 5 := by decide

/-! ## Claim C3: the character budget of wrap_text -/

/-- C3 (code evaluation at the failing input): at `max_width = 90` and
`avg_char_width = 10`, the code's budget `int(90 / (10 * 0.9)) = 10`
exceeds the naive estimate `90 / 10 = 9` instead of staying ≈10% below it:
the code divides by 0.9 where the intended safety margin (per the spec and
the `# padding` comment) requires multiplying by 0.9. -/
theorem max_chars_exceeds_naive_estimate :
    maxCharsFor 90 10 = 10 ∧ (90 : Nat) / 10 = 9 ∧ (9 : Nat) < 10 := by
  decide

/-! ## Claims C6, C7: line clamping and clipping in the renderers -/

lemma drawLoop_length_bound (bound line_h : Nat)
    (ls : List String) (y : Nat) :
    (drawLoop bound line_h y ls).length * line_h + y ≤ bound ∨
      drawLoop bound line_h y ls = [] := by
  induction ls generalizing y with
  | nil => right; rfl
  | cons l ls ih =>
    by_cases hb : bound < y + line_h
    · right
      simp [drawLoop, hb]
    · left
      rcases ih (y + line_h) with h1 | h1
      · simp only [drawLoop, if_neg hb, List.length_cons]
        rw [Nat.succ_mul]
        omega
      · simp only [drawLoop, if_neg hb, h1, List.length_cons,
          List.length_nil]
        omega

/-- C7: the back face draws at most 3 answer lines, and when the wrapped
answer has more than 3 lines exactly the first 3 are drawn. -/
theorem back_answer_at_most_three
    (gf : Nat → String → Font) (card : Card)
    (r : List String × List (String × Nat))
    (hr : render_card_back_text gf card = some r) :
    r.1.length ≤ 3 ∧
      ∀ ls, back_answer_lines gf card = some ls → 3 < ls.length →
        r.1 = ls.take 3 := by
  unfold render_card_back_text at hr
  cases hal : back_answer_lines gf card with
  | none => rw [hal] at hr; exact absurd hr (by simp)
  | some ansLines =>
    rw [hal] at hr
    dsimp only at hr
    cases hew : wrap_text (back_exploration card)
        (gf (back_expl_font_size card) "Regular") (card_w - 120) with
    | none => rw [hew] at hr; exact absurd hr (by simp)
    | some explLines =>
      rw [hew] at hr
      dsimp only at hr
      have hr1 : r.1 = if 3 < ansLines.length then ansLines.take 3
          else ansLines := by
        have := Option.some.inj hr
        rw [← this]
      constructor
      · rw [hr1]
        split
        · simp [List.length_take]
        · rename_i hle
          omega
      · intro ls hls hlong
        have hls' : ls = ansLines := (Option.some.inj hls).symm
        subst hls'
        rw [hr1, if_pos hlong]

/-- Witness for C7: under `midGf` the answer of `fiveLineAnswerCard` wraps
to 5 lines and exactly the first 3 are drawn. -/
theorem back_answer_at_most_three_witness :
    (["aa", "bb", "cc"] : List String).length ≤ 3 ∧
      (["aa", "bb", "cc"] : List String)
        = (["aa", "bb", "cc", "dd", "ee"] : List String).take 3 := by
  have h := back_answer_at_most_three midGf fiveLineAnswerCard
    (["aa", "bb", "cc"], [("x", 560)]) (by decide)
  exact ⟨h.1, h.2 ["aa", "bb", "cc", "dd", "ee"] (by decide) (by decide)⟩

/-- C6 (amended, the part that holds): on the back face the number of
explanation lines drawn is at most
`⌊((cy2 - expl_text_start) - 40) / line_h⌋ = ⌊570 / line_h⌋`, i.e. lines
whose bottom would pass the panel's bottom edge minus the 40-pixel margin
are omitted.  (The front face has no such truncation; see the
counterexample.) -/
theorem back_expl_lines_bounded
    (gf : Nat → String → Font) (card : Card)
    (r : List String × List (String × Nat))
    (hr : render_card_back_text gf card = some r) :
    r.2.length ≤ ((contentY2 - 40) - (expl_y_start + 50))
      / back_expl_line_h gf card := by
  unfold render_card_back_text at hr
  cases hal : back_answer_lines gf card with
  | none => rw [hal] at hr; exact absurd hr (by simp)
  | some ansLines =>
    rw [hal] at hr
    dsimp only at hr
    cases hew : wrap_text (back_exploration card)
        (gf (back_expl_font_size card) "Regular") (card_w - 120) with
    | none => rw [hew] at hr; exact absurd hr (by simp)
    | some explLines =>
      rw [hew] at hr
      dsimp only at hr
      have hr2 : r.2 = drawLoop (contentY2 - 40) (back_expl_line_h gf card)
          (expl_y_start + 50) explLines := by
        have := Option.some.inj hr
        rw [← this]
        rfl
      have hpos : 0 < back_expl_line_h gf card := by
        unfold back_expl_line_h
        omega
      rw [hr2]
      rw [Nat.le_div_iff_mul_le hpos]
      rcases drawLoop_length_bound (contentY2 - 40) (back_expl_line_h gf card)
          explLines (expl_y_start + 50) with h1 | h1
      · omega
      · rw [h1]
        simp

/-- Witness for C6 (amended) at a concrete font and card: 1 drawn line,
bound `570 / 32 = 17`. -/
theorem back_expl_lines_bounded_witness :
    ([(("some deep insight here" : String), (560 : Nat))]).length
      ≤ ((contentY2 - 40) - (expl_y_start + 50))
        / back_expl_line_h exGf smallBackCard :=
  (back_expl_lines_bounded exGf smallBackCard
    (["short answer"], [("some deep insight here", 560)]) (by decide))

set_option maxRecDepth 40000 in
/-- Counterexample to C6 as stated for the front face: the 60-word question
wraps to 60 lines and `render_card_front` draws all of them (its loop has no
clipping test), while even the zero-margin capacity
`⌊card_h / line_height⌋ = ⌊950 / 35⌋ = 27` is smaller. -/
theorem front_no_truncation_cex :
    ((render_card_front_lines wideGf longQCard).getD []).length = 60 ∧
      card_h / ((wideGf (front_font_size longQCard) "Bold").bbox3 "Ay" + 15)
        = 27 ∧
      (27 : Nat) < 60 := by
  decide

/-! ## Claims C5, C10: clean_text -/

/-- Adjacent characters are never both whitespace. -/
def noWsPair (a b : Char) : Prop := isPyWs a = false ∨ isPyWs b = false

lemma mem_collapseWsGo : ∀ {b : Bool} {l : List Char} {c : Char},
    c ∈ collapseWsGo b l → c = ' ' ∨ c ∈ l := by
  intro b l
  induction l generalizing b with
  | nil => intro c hc; exact absurd hc (List.not_mem_nil c)
  | cons a t ih =>
    intro c hc
    unfold collapseWsGo at hc
    by_cases ha : isPyWs a = true
    · rw [if_pos ha] at hc
      rcases List.mem_append.mp hc with h1 | h1
      · left
        cases hb : b with
        | true => rw [hb] at h1; exact absurd h1 (List.not_mem_nil c)
        | false =>
          rw [hb] at h1
          simpa using h1
      · rcases ih h1 with h2 | h2
        · exact Or.inl h2
        · exact Or.inr (List.mem_cons_of_mem a h2)
    · rw [if_neg ha] at hc
      rcases List.mem_cons.mp hc with h1 | h1
      · exact Or.inr (h1 ▸ List.mem_cons_self a t)
      · rcases ih h1 with h2 | h2
        · exact Or.inl h2
        · exact Or.inr (List.mem_cons_of_mem a h2)

lemma collapseWsGo_ws_space : ∀ {b : Bool} {l : List Char} {c : Char},
    c ∈ collapseWsGo b l → isPyWs c = true → c = ' ' := by
  intro b l
  induction l generalizing b with
  | nil => intro c hc; exact absurd hc (List.not_mem_nil c)
  | cons a t ih =>
    intro c hc hws
    unfold collapseWsGo at hc
    by_cases ha : isPyWs a = true
    · rw [if_pos ha] at hc
      rcases List.mem_append.mp hc with h1 | h1
      · cases hb : b with
        | true => rw [hb] at h1; exact absurd h1 (List.not_mem_nil c)
        | false => rw [hb] at h1; simpa using h1
      · exact ih h1 hws
    · rw [if_neg ha] at hc
      rcases List.mem_cons.mp hc with h1 | h1
      · rw [h1] at hws; exact absurd hws (by simpa using ha)
      · exact ih h1 hws

lemma collapseWsGo_true_head : ∀ {l : List Char} {c : Char}
    {rest : List Char}, collapseWsGo true l = c :: rest →
    isPyWs c = false := by
  intro l
  induction l with
  | nil => intro c rest h; exact absurd h (by simp [collapseWsGo])
  | cons a t ih =>
    intro c rest h
    unfold collapseWsGo at h
    by_cases ha : isPyWs a = true
    · rw [if_pos ha] at h
      exact ih h
    · rw [if_neg ha] at h
      have := (List.cons.inj h).1
      rw [← this]
      simpa using ha

lemma collapseWsGo_chain : ∀ (b : Bool) (l : List Char),
    List.Chain' noWsPair (collapseWsGo b l) := by
  intro b l
  induction l generalizing b with
  | nil => exact List.chain'_nil
  | cons a t ih =>
    unfold collapseWsGo
    by_cases ha : isPyWs a = true
    · rw [if_pos ha]
      cases b with
      | true => simpa using ih true
      | false =>
        show List.Chain' noWsPair (' ' :: collapseWsGo true t)
        rw [List.chain'_cons']
        refine ⟨?_, ih true⟩
        intro y hy
        right
        cases hgo : collapseWsGo true t with
        | nil => rw [hgo] at hy; exact absurd hy (by simp)
        | cons z zs =>
          rw [hgo] at hy
          simp only [List.head?_cons, Option.mem_def, Option.some.injEq] at hy
          rw [← hy]
          exact collapseWsGo_true_head hgo
    · rw [if_neg ha]
      rw [List.chain'_cons']
      refine ⟨?_, ih false⟩
      intro y hy
      left
      simpa using ha

lemma collapseWsGo_eq_self : ∀ (l : List Char) (b : Bool),
    List.Chain' noWsPair l → (∀ c ∈ l, isPyWs c = true → c = ' ') →
    (b = true → ∀ c ∈ l.head?, isPyWs c = false) →
    collapseWsGo b l = l := by
  intro l
  induction l with
  | nil => intro b _ _ _; rfl
  | cons a t ih =>
    intro b hchain hsp hhead
    unfold collapseWsGo
    by_cases ha : isPyWs a = true
    · have hb : b = false := by
        cases hb2 : b with
        | false => rfl
        | true =>
          have := hhead hb2 a (by simp)
          rw [ha] at this
          exact absurd this (by simp)
      subst hb
      rw [if_pos ha]
      have ha' : a = ' ' := hsp a (by simp) ha
      have htail : collapseWsGo true t = t := by
        cases t with
        | nil => rfl
        | cons d t2 =>
          have hd : isPyWs d = false := by
            have := (List.chain'_cons'.mp hchain).1 d (by simp)
            rcases this with h1 | h1
            · rw [ha] at h1; exact absurd h1 (by simp)
            · exact h1
          have hsame : collapseWsGo true (d :: t2)
              = collapseWsGo false (d :: t2) := by
            unfold collapseWsGo
            rw [if_neg (by simp [hd]), if_neg (by simp [hd])]
          rw [hsame]
          exact ih false (List.chain'_cons'.mp hchain).2
            (fun c hc => hsp c (List.mem_cons_of_mem a hc))
            (fun hb2 => absurd hb2 (by simp))
      rw [htail, ha']
      rfl
    · rw [if_neg ha]
      congr 1
      exact ih false (List.chain'_cons'.mp hchain).2
        (fun c hc => hsp c (List.mem_cons_of_mem a hc))
        (fun hb2 => absurd hb2 (by simp))

lemma dropWhile_head_false {p : Char → Bool} :
    ∀ (l : List Char) (c : Char) (rest : List Char),
      l.dropWhile p = c :: rest → p c = false := by
  intro l
  induction l with
  | nil => intro c rest h; exact absurd h (by simp)
  | cons a t ih =>
    intro c rest h
    rw [List.dropWhile_cons] at h
    by_cases ha : p a = true
    · rw [if_pos ha] at h
      exact ih c rest h
    · rw [if_neg ha] at h
      have := (List.cons.inj h).1
      rw [← this]
      simpa using ha

lemma getLast?_dropWhile (p : Char → Bool) : ∀ l : List Char,
    l.dropWhile p = [] ∨ (l.dropWhile p).getLast? = l.getLast? := by
  intro l
  induction l with
  | nil => left; rfl
  | cons a t ih =>
    rw [List.dropWhile_cons]
    by_cases ha : p a = true
    · rw [if_pos ha]
      cases t with
      | nil => left; rfl
      | cons d t2 =>
        rcases ih with h1 | h1
        · left; exact h1
        · right
          rw [h1, List.getLast?_cons_cons]
    · rw [if_neg ha]
      right; rfl

lemma dropWhile_eq_self_of_head {p : Char → Bool} : ∀ {l : List Char},
    (∀ c ∈ l.head?, p c = false) → l.dropWhile p = l := by
  intro l hh
  cases l with
  | nil => rfl
  | cons a t =>
    rw [List.dropWhile_cons, if_neg]
    rw [hh a (by simp)]
    simp

lemma mem_pyStrip {l : List Char} {c : Char} (h : c ∈ pyStrip l) :
    c ∈ l := by
  unfold pyStrip at h
  rw [List.mem_reverse] at h
  have h2 := (List.dropWhile_sublist (l := (l.dropWhile isPyWs).reverse)
    (p := isPyWs)).subset h
  rw [List.mem_reverse] at h2
  exact (List.dropWhile_sublist (l := l) (p := isPyWs)).subset h2

lemma noWsPair_symm : ∀ a b : Char, noWsPair a b → noWsPair b a := by
  intro a b h
  rcases h with h | h
  · exact Or.inr h
  · exact Or.inl h

lemma chain'_reverse_of_symm {R : Char → Char → Prop}
    (hsym : ∀ a b, R a b → R b a) {l : List Char}
    (h : List.Chain' R l) : List.Chain' R l.reverse := by
  rw [List.chain'_reverse]
  exact List.Chain'.imp (fun a b hab => hsym a b hab) h

lemma chain'_dropWhile {R : Char → Char → Prop} {p : Char → Bool} :
    ∀ (l : List Char), List.Chain' R l → List.Chain' R (l.dropWhile p) := by
  intro l
  induction l with
  | nil => intro _; exact List.chain'_nil
  | cons a t ih =>
    intro h
    rw [List.dropWhile_cons]
    by_cases ha : p a = true
    · rw [if_pos ha]
      exact ih (List.chain'_cons'.mp h).2
    · rw [if_neg ha]
      exact h

lemma chain'_pyStrip {l : List Char} (h : List.Chain' noWsPair l) :
    List.Chain' noWsPair (pyStrip l) := by
  unfold pyStrip
  exact chain'_reverse_of_symm noWsPair_symm
    (chain'_dropWhile _ (chain'_reverse_of_symm noWsPair_symm
      (chain'_dropWhile _ h)))

lemma pyStrip_head_not_ws (l : List Char) :
    ∀ c ∈ (pyStrip l).head?, isPyWs c = false := by
  intro c hc
  unfold pyStrip at hc
  rw [List.head?_reverse] at hc
  rcases getLast?_dropWhile isPyWs (l.dropWhile isPyWs).reverse with h1 | h1
  · rw [h1] at hc
    exact absurd hc (by simp)
  · rw [h1, List.getLast?_reverse] at hc
    cases hd : l.dropWhile isPyWs with
    | nil => rw [hd] at hc; exact absurd hc (by simp)
    | cons d t =>
      rw [hd] at hc
      simp only [List.head?_cons, Option.mem_def, Option.some.injEq] at hc
      rw [← hc]
      exact dropWhile_head_false _ _ _ hd

lemma pyStrip_getLast_not_ws (l : List Char) :
    ∀ c ∈ (pyStrip l).getLast?, isPyWs c = false := by
  intro c hc
  unfold pyStrip at hc
  rw [List.getLast?_reverse] at hc
  cases hd : (l.dropWhile isPyWs).reverse.dropWhile isPyWs with
  | nil => rw [hd] at hc; exact absurd hc (by simp)
  | cons d t =>
    rw [hd] at hc
    simp only [List.head?_cons, Option.mem_def, Option.some.injEq] at hc
    rw [← hc]
    exact dropWhile_head_false _ _ _ hd

lemma pyStrip_eq_self {l : List Char}
    (hh : ∀ c ∈ l.head?, isPyWs c = false)
    (hl : ∀ c ∈ l.getLast?, isPyWs c = false) :
    pyStrip l = l := by
  unfold pyStrip
  rw [dropWhile_eq_self_of_head hh]
  rw [dropWhile_eq_self_of_head (by
    intro c hc
    rw [List.head?_reverse] at hc
    exact hl c hc)]
  exact List.reverse_reverse l

lemma clean_pipeline_fixed (l : List Char) :
    pyStrip (collapseWs (stripMarkdown
      (pyStrip (collapseWs (stripMarkdown l)))))
      = pyStrip (collapseWs (stripMarkdown l)) := by
  set r := pyStrip (collapseWs (stripMarkdown l)) with hr
  have hmem : ∀ c ∈ r, c = ' ' ∨ c ∈ stripMarkdown l := by
    intro c hc
    exact mem_collapseWsGo (mem_pyStrip hc)
  have h1 : stripMarkdown r = r := by
    apply List.filter_eq_self.mpr
    intro c hc
    rcases hmem c hc with h2 | h2
    · rw [h2]; decide
    · exact (List.mem_filter.mp h2).2
  have h2 : collapseWs r = r := by
    apply collapseWsGo_eq_self
    · exact chain'_pyStrip (collapseWsGo_chain false _)
    · intro c hc hws
      exact collapseWsGo_ws_space (mem_pyStrip hc) hws
    · intro hb; exact absurd hb (by simp)
  have h3 : pyStrip r = r :=
    pyStrip_eq_self (pyStrip_head_not_ws _) (pyStrip_getLast_not_ws _)
  rw [h1, h2, h3]

/-- C5: `clean_text` is idempotent. -/
theorem clean_text_idempotent (t : Option String) :
    clean_text (some (clean_text t)) = clean_text t := by
  cases t with
  | none => simp [clean_text]
  | some s =>
    by_cases hs : s = ""
    · subst hs; simp [clean_text]
    · have hcs : clean_text (some s)
          = String.mk (pyStrip (collapseWs (stripMarkdown s.data))) := by
        simp [clean_text, hs]
      rw [hcs]
      by_cases hr : String.mk (pyStrip (collapseWs (stripMarkdown s.data))) = ""
      · rw [hr]; simp [clean_text]
      · have : clean_text (some (String.mk (pyStrip (collapseWs
            (stripMarkdown s.data)))))
            = String.mk (pyStrip (collapseWs (stripMarkdown
              (pyStrip (collapseWs (stripMarkdown s.data)))))) := by
          simp only [clean_text, if_neg hr]
        rw [this, clean_pipeline_fixed]

/-- C10: the output of `clean_text` contains no markdown marker, its
whitespace characters are single spaces with no two adjacent, it has no
leading or trailing whitespace, and `None`/`""` map to `""`. -/
theorem clean_text_normal_form (t : Option String) :
    (∀ c ∈ (clean_text t).data, c ≠ '*' ∧ c ≠ '_' ∧ c ≠ backquote) ∧
    (∀ c ∈ (clean_text t).data, isPyWs c = true → c = ' ') ∧
    List.Chain' noWsPair (clean_text t).data ∧
    (∀ c ∈ (clean_text t).data.head?, isPyWs c = false) ∧
    (∀ c ∈ (clean_text t).data.getLast?, isPyWs c = false) ∧
    clean_text none = "" ∧ clean_text (some "") = "" := by
  have hbase : ∀ l : List Char,
      (∀ c ∈ pyStrip (collapseWs (stripMarkdown l)),
        c ≠ '*' ∧ c ≠ '_' ∧ c ≠ backquote) ∧
      (∀ c ∈ pyStrip (collapseWs (stripMarkdown l)),
        isPyWs c = true → c = ' ') ∧
      List.Chain' noWsPair (pyStrip (collapseWs (stripMarkdown l))) ∧
      (∀ c ∈ (pyStrip (collapseWs (stripMarkdown l))).head?,
        isPyWs c = false) ∧
      (∀ c ∈ (pyStrip (collapseWs (stripMarkdown l))).getLast?,
        isPyWs c = false) := by
    intro l
    refine ⟨?_, ?_, ?_, ?_, ?_⟩
    · intro c hc
      rcases mem_collapseWsGo (mem_pyStrip hc) with h1 | h1
      · rw [h1]
        refine ⟨by decide, by decide, by decide⟩
      · have h2 := (List.mem_filter.mp h1).2
        simp only [Bool.not_eq_true', Bool.or_eq_false_iff,
          decide_eq_false_iff_not] at h2
        exact ⟨h2.1.1, h2.1.2, h2.2⟩
    · intro c hc hws
      exact collapseWsGo_ws_space (mem_pyStrip hc) hws
    · exact chain'_pyStrip (collapseWsGo_chain false _)
    · exact pyStrip_head_not_ws _
    · exact pyStrip_getLast_not_ws _
  cases t with
  | none =>
    refine ⟨?_, ?_, ?_, ?_, ?_, rfl, by simp [clean_text]⟩ <;>
      simp [clean_text]
  | some s =>
    by_cases hs : s = ""
    · subst hs
      refine ⟨?_, ?_, ?_, ?_, ?_, rfl, by simp [clean_text]⟩ <;>
        simp [clean_text]
    · have hcs : clean_text (some s)
          = String.mk (pyStrip (collapseWs (stripMarkdown s.data))) := by
        simp [clean_text, hs]
      rw [hcs]
      have hb := hbase s.data
      exact ⟨hb.1, hb.2.1, hb.2.2.1, hb.2.2.2.1, hb.2.2.2.2,
        rfl, by simp [clean_text]⟩

/-! ## Structure of splitChunks -/

lemma list_strong_ind {α : Type} {P : List α → Prop}
    (H : ∀ l, (∀ l2 : List α, l2.length < l.length → P l2) → P l) :
    ∀ l, P l := by
  have key : ∀ (n : Nat) (l2 : List α), l2.length < n → P l2 := by
    intro n
    induction n with
    | zero => intro l2 h; omega
    | succ n ih =>
      intro l2 h
      apply H
      intro l3 h3
      apply ih
      omega
  intro l
  exact H l (key l.length)

lemma consChunk_cons_same {c d : Char} {tw : List Char}
    {rest : List (List Char)} (h : isPyWs c = isPyWs d) :
    consChunk c ((d :: tw) :: rest) = (c :: d :: tw) :: rest := by
  show (if isPyWs c = isPyWs d then (c :: d :: tw) :: rest
    else [c] :: (d :: tw) :: rest) = (c :: d :: tw) :: rest
  rw [if_pos h]

lemma consChunk_cons_diff {c d : Char} {tw : List Char}
    {rest : List (List Char)} (h : ¬ isPyWs c = isPyWs d) :
    consChunk c ((d :: tw) :: rest) = [c] :: (d :: tw) :: rest := by
  show (if isPyWs c = isPyWs d then (c :: d :: tw) :: rest
    else [c] :: (d :: tw) :: rest) = [c] :: (d :: tw) :: rest
  rw [if_neg h]

/-- The run decomposition of `splitChunks`: the first chunk is the maximal
run of the head's whitespace class. -/
lemma splitChunks_run (c : Char) (l : List Char) :
    splitChunks (c :: l)
      = (c :: l.takeWhile (fun x => isPyWs x == isPyWs c))
        :: splitChunks (l.dropWhile (fun x => isPyWs x == isPyWs c)) := by
  induction l generalizing c with
  | nil => rfl
  | cons d t ih =>
    have hL : splitChunks (c :: d :: t) = consChunk c (splitChunks (d :: t)) :=
      rfl
    rw [hL, ih d]
    by_cases hcd : isPyWs c = isPyWs d
    · rw [consChunk_cons_same hcd]
      have hp : (fun x => isPyWs x == isPyWs c)
          = fun x => isPyWs x == isPyWs d := by
        funext x
        rw [hcd]
      rw [List.takeWhile_cons, List.dropWhile_cons,
        if_pos (by rw [hcd]; simp), if_pos (by rw [hcd]; simp), hp]
    · rw [consChunk_cons_diff hcd]
      have hdc : (isPyWs d == isPyWs c) = false := by
        simp only [beq_eq_false_iff_ne, ne_eq]
        exact fun h2 => hcd h2.symm
      rw [List.takeWhile_cons, List.dropWhile_cons]
      rw [if_neg (by simp [hdc]), if_neg (by simp [hdc])]
      rw [ih d]

/-- A chunk is homogeneous: all whitespace or all non-whitespace. -/
def ChunkHomog (ch : List Char) : Prop :=
  (∀ x ∈ ch, isPyWs x = true) ∨ (∀ x ∈ ch, isPyWs x = false)

/-- A list of chunks that can appear as a wrapped line: homogeneous
non-empty pieces with strictly alternating whitespace class. -/
def GoodPieces (ps : List (List Char)) : Prop :=
  (∀ ch ∈ ps, ch ≠ [] ∧ ChunkHomog ch) ∧
    List.Chain' (fun a b => isWsChunk a ≠ isWsChunk b) ps

lemma isWsChunk_of_class {ch : List Char} {b : Bool} (hne : ch ≠ [])
    (hall : ∀ x ∈ ch, isPyWs x = b) : isWsChunk ch = b := by
  cases b with
  | true =>
    unfold isWsChunk
    rw [List.all_eq_true]
    exact hall
  | false =>
    cases ch with
    | nil => exact absurd rfl hne
    | cons x t =>
      unfold isWsChunk
      have := hall x (by simp)
      simp [this]

lemma run_chunk_class (c : Char) (l : List Char) :
    ∀ x ∈ c :: l.takeWhile (fun x => isPyWs x == isPyWs c),
      isPyWs x = isPyWs c := by
  intro x hx
  rcases List.mem_cons.mp hx with h | h
  · rw [h]
  · have := List.mem_takeWhile_imp h
    simpa using this

lemma splitChunks_good : ∀ l : List Char,
    (splitChunks l).flatten = l ∧ GoodPieces (splitChunks l) := by
  apply list_strong_ind
  intro l ih
  cases l with
  | nil =>
    refine ⟨rfl, ?_, ?_⟩ <;> simp [splitChunks]
  | cons c t =>
    rw [splitChunks_run c t]
    have hlen : (t.dropWhile (fun x => isPyWs x == isPyWs c)).length
        < (c :: t).length := by
      have h1 := (List.dropWhile_sublist (l := t)
        (p := fun x => isPyWs x == isPyWs c)).length_le
      simp only [List.length_cons]
      omega
    obtain ⟨ihfl, ihne, ihch⟩ := ih _ hlen
    refine ⟨?_, ?_, ?_⟩
    · simp only [List.flatten_cons, ihfl]
      rw [List.cons_append, List.takeWhile_append_dropWhile]
    · intro ch hch
      rcases List.mem_cons.mp hch with h | h
      · subst h
        refine ⟨by simp, ?_⟩
        by_cases hc : isPyWs c = true
        · left
          intro x hx
          rw [run_chunk_class c t x hx, hc]
        · right
          intro x hx
          rw [run_chunk_class c t x hx]
          simp at hc
          exact hc
      · exact ihne ch h
    · rw [List.chain'_cons']
      refine ⟨?_, ihch⟩
      intro y hy
      cases hd : t.dropWhile (fun x => isPyWs x == isPyWs c) with
      | nil =>
        rw [hd] at hy
        exact absurd hy (by simp [splitChunks])
      | cons d t2 =>
        rw [hd, splitChunks_run d t2] at hy
        simp only [List.head?_cons, Option.mem_def, Option.some.injEq] at hy
        have hclass1 : isWsChunk (c :: t.takeWhile
            (fun x => isPyWs x == isPyWs c)) = isPyWs c :=
          isWsChunk_of_class (by simp) (run_chunk_class c t)
        have hdc : (isPyWs d == isPyWs c) = false :=
          dropWhile_head_false _ _ _ hd
        have hclass2 : isWsChunk y = isPyWs d := by
          rw [← hy]
          exact isWsChunk_of_class (by simp) (run_chunk_class d t2)
        rw [hclass1, hclass2]
        intro heq
        rw [heq] at hdc
        simp at hdc

lemma splitChunks_flatten (l : List Char) : (splitChunks l).flatten = l :=
  (splitChunks_good l).1

lemma splitChunks_pieces (l : List Char) : GoodPieces (splitChunks l) :=
  (splitChunks_good l).2

/-! ## Inverting splitChunks on good piece lists -/

lemma takeWhile_append_all {p : Char → Bool} :
    ∀ (a b : List Char), (∀ x ∈ a, p x = true) →
      (a ++ b).takeWhile p = a ++ b.takeWhile p := by
  intro a
  induction a with
  | nil => intro b _; rfl
  | cons x t ih =>
    intro b hall
    rw [List.cons_append, List.takeWhile_cons,
      if_pos (hall x (by simp)), ih b (fun y hy => hall y (by simp [hy]))]
    rfl

lemma dropWhile_append_all {p : Char → Bool} :
    ∀ (a b : List Char), (∀ x ∈ a, p x = true) →
      (a ++ b).dropWhile p = b.dropWhile p := by
  intro a
  induction a with
  | nil => intro b _; rfl
  | cons x t ih =>
    intro b hall
    rw [List.cons_append, List.dropWhile_cons, if_pos (hall x (by simp))]
    exact ih b (fun y hy => hall y (by simp [hy]))

lemma chunk_class_of_homog {ch : List Char} (hne : ch ≠ [])
    (hh : ChunkHomog ch) : ∀ x ∈ ch, isPyWs x = isWsChunk ch := by
  intro x hx
  rcases hh with h | h
  · rw [h x hx, isWsChunk_of_class hne h]
  · rw [h x hx, isWsChunk_of_class hne h]

/-- The function `splitChunks` is a left inverse of flattening on good piece lists. -/
lemma splitChunks_flatten_pieces : ∀ ps : List (List Char), GoodPieces ps →
    splitChunks ps.flatten = ps := by
  intro ps
  induction ps with
  | nil => intro _; rfl
  | cons p ps ih =>
    intro hgood
    obtain ⟨hmem, hch⟩ := hgood
    obtain ⟨hpne, hph⟩ := hmem p (by simp)
    cases hp : p with
    | nil => exact absurd hp hpne
    | cons c pt =>
      subst hp
      rw [List.flatten_cons, List.cons_append, splitChunks_run]
      have hclass : ∀ x ∈ c :: pt, isPyWs x = isPyWs c := by
        intro x hx
        have h1 := chunk_class_of_homog hpne hph x hx
        have h2 := chunk_class_of_homog hpne hph c (by simp)
        rw [h1, ← h2]
      have hptall : ∀ x ∈ pt, (isPyWs x == isPyWs c) = true := by
        intro x hx
        simp [hclass x (by simp [hx])]
      have htail : ∀ rest : List Char,
          (rest = [] ∨ ∃ d t2, rest = d :: t2 ∧
            (isPyWs d == isPyWs c) = false) →
          (pt ++ rest).takeWhile (fun x => isPyWs x == isPyWs c) = pt ∧
          (pt ++ rest).dropWhile (fun x => isPyWs x == isPyWs c) = rest := by
        intro rest hrest
        constructor
        · rw [takeWhile_append_all pt rest hptall]
          rcases hrest with h | ⟨d, t2, h, hd⟩
          · simp [h]
          · rw [h, List.takeWhile_cons, if_neg (by simp [hd])]
            simp
        · rw [dropWhile_append_all pt rest hptall]
          rcases hrest with h | ⟨d, t2, h, hd⟩
          · simp [h]
          · rw [h, List.dropWhile_cons, if_neg (by simp [hd])]
      cases hps : ps with
      | nil =>
        subst hps
        have := htail [] (Or.inl rfl)
        simp only [List.flatten_nil, List.append_nil] at this ⊢
        rw [this.1, this.2]
        rfl
      | cons q ps2 =>
        subst hps
        obtain ⟨hqne, hqh⟩ := hmem q (by simp)
        cases hq : q with
        | nil => exact absurd hq hqne
        | cons d qt =>
          subst hq
          have halt : isWsChunk (c :: pt) ≠ isWsChunk (d :: qt) :=
            (List.chain'_cons'.mp hch).1 (d :: qt) (by simp)
          have hd : (isPyWs d == isPyWs c) = false := by
            have h1 : isWsChunk (c :: pt) = isPyWs c :=
              (chunk_class_of_homog hpne hph c (by simp)).symm
            have h2 : isWsChunk (d :: qt) = isPyWs d :=
              (chunk_class_of_homog hqne hqh d (by simp)).symm
            rw [h1, h2] at halt
            simp only [beq_eq_false_iff_ne, ne_eq]
            exact fun h3 => halt h3.symm
          have hflat : ((d :: qt) :: ps2).flatten
              = d :: (qt ++ ps2.flatten) := by
            simp
          rw [hflat]
          have := htail (d :: (qt ++ ps2.flatten))
            (Or.inr ⟨d, qt ++ ps2.flatten, rfl, hd⟩)
          rw [this.1, this.2]
          have hihres : splitChunks (((d :: qt) :: ps2
              : List (List Char)).flatten) = (d :: qt) :: ps2 :=
            ih ⟨fun ch h => hmem ch (List.mem_cons_of_mem _ h),
              (List.chain'_cons'.mp hch).2⟩
          rw [hflat] at hihres
          rw [hihres]

/-! ## Word-sequence lemmas -/

lemma pyWordsL_flatten_pieces (ps : List (List Char)) (h : GoodPieces ps) :
    pyWordsL ps.flatten = ps.filter (fun ch => !isWsChunk ch) := by
  unfold pyWordsL
  rw [splitChunks_flatten_pieces ps h]

lemma beq_true_fn : (fun x => isPyWs x == true) = isPyWs := by
  funext x
  cases isPyWs x <;> rfl

lemma beq_false_fn : (fun x => isPyWs x == false) = fun x => !isPyWs x := by
  funext x
  cases isPyWs x <;> rfl

lemma pyWordsL_dropWs (l : List Char) :
    pyWordsL l = pyWordsL (l.dropWhile isPyWs) := by
  cases l with
  | nil => rfl
  | cons c t =>
    by_cases hc : isPyWs c = true
    · unfold pyWordsL
      rw [splitChunks_run c t, List.dropWhile_cons, if_pos hc]
      rw [List.filter_cons]
      have hws : isWsChunk (c :: t.takeWhile (fun x => isPyWs x == isPyWs c))
          = true := by
        apply isWsChunk_of_class (by simp)
        intro x hx
        rw [run_chunk_class c t x hx, hc]
      rw [hws]
      simp only [Bool.not_true]
      rw [if_neg (by simp)]
      have hp : (fun x => isPyWs x == isPyWs c) = isPyWs := by
        rw [hc]
        exact beq_true_fn
      rw [hp]
    · rw [List.dropWhile_cons, if_neg hc]

lemma pyWordsL_ws_cons {c : Char} (hc : isPyWs c = true) (l : List Char) :
    pyWordsL (c :: l) = pyWordsL l := by
  have h1 : pyWordsL (c :: l) = pyWordsL ((c :: l).dropWhile isPyWs) :=
    pyWordsL_dropWs (c :: l)
  rw [List.dropWhile_cons, if_pos hc] at h1
  rw [h1, ← pyWordsL_dropWs l]

lemma pyWordsL_word_cons {c : Char} (hc : isPyWs c = false) (l : List Char) :
    pyWordsL (c :: l)
      = (c :: l.takeWhile (fun x => !isPyWs x))
        :: pyWordsL (l.dropWhile (fun x => !isPyWs x)) := by
  unfold pyWordsL
  rw [splitChunks_run c l]
  rw [List.filter_cons]
  have hwd : isWsChunk (c :: l.takeWhile (fun x => isPyWs x == isPyWs c))
      = false := by
    apply isWsChunk_of_class (by simp)
    intro x hx
    rw [run_chunk_class c l x hx, hc]
  rw [hwd]
  have hp : (fun x => isPyWs x == isPyWs c) = fun x => !isPyWs x := by
    rw [hc]
    exact beq_false_fn
  rw [hp]
  simp

lemma takeWhile_append_sep {p : Char → Bool} {x : Char} (hx : p x = false) :
    ∀ (a b : List Char), (a ++ x :: b).takeWhile p = a.takeWhile p := by
  intro a
  induction a with
  | nil =>
    intro b
    rw [List.nil_append, List.takeWhile_cons, if_neg (by simp [hx])]
    rfl
  | cons y t ih =>
    intro b
    rw [List.cons_append, List.takeWhile_cons, List.takeWhile_cons]
    by_cases hy : p y = true
    · rw [if_pos hy, if_pos hy, ih b]
    · rw [if_neg hy, if_neg hy]

lemma dropWhile_append_sep {p : Char → Bool} {x : Char} (hx : p x = false) :
    ∀ (a b : List Char), (a ++ x :: b).dropWhile p = a.dropWhile p ++ x :: b := by
  intro a
  induction a with
  | nil =>
    intro b
    rw [List.nil_append, List.dropWhile_cons, if_neg (by simp [hx])]
    rfl
  | cons y t ih =>
    intro b
    rw [List.cons_append, List.dropWhile_cons, List.dropWhile_cons]
    by_cases hy : p y = true
    · rw [if_pos hy, if_pos hy, ih b]
    · rw [if_neg hy, if_neg hy, List.cons_append]

/-- Words distribute over concatenation with a whitespace separator. -/
lemma pyWordsL_append_sep {sep : Char} (hsep : isPyWs sep = true) :
    ∀ (a b : List Char), pyWordsL (a ++ sep :: b)
      = pyWordsL a ++ pyWordsL b := by
  apply list_strong_ind
    (P := fun a => ∀ b, pyWordsL (a ++ sep :: b) = pyWordsL a ++ pyWordsL b)
  intro a ih
  cases a with
  | nil =>
    intro b
    rw [List.nil_append, pyWordsL_ws_cons hsep]
    rfl
  | cons c t =>
    intro b
    by_cases hc : isPyWs c = true
    · rw [List.cons_append, pyWordsL_ws_cons hc, pyWordsL_ws_cons hc]
      exact ih t (by simp) b
    · have hc' : isPyWs c = false := by simpa using hc
      rw [List.cons_append, pyWordsL_word_cons hc', pyWordsL_word_cons hc']
      have hsep' : (fun x => !isPyWs x) sep = false := by simp [hsep]
      rw [takeWhile_append_sep hsep' t b, dropWhile_append_sep hsep' t b]
      have hlen : (t.dropWhile (fun x => !isPyWs x)).length < (c :: t).length := by
        have h1 := (List.dropWhile_sublist (l := t)
          (p := fun x => !isPyWs x)).length_le
        simp only [List.length_cons]
        omega
      rw [ih _ hlen b]
      rfl

/-! ## Paragraph splitting -/

lemma splitOnNl_nil : splitOnNl [] = [[]] := rfl

lemma splitOnNl_cons (c : Char) (l : List Char) :
    splitOnNl (c :: l)
      = if c = '\n' then [] :: splitOnNl l
        else
          match splitOnNl l with
          | [] => [[c]]
          | a :: as => (c :: a) :: as := rfl

lemma splitOnNl_ne_nil : ∀ l : List Char, splitOnNl l ≠ [] := by
  intro l
  induction l with
  | nil => simp [splitOnNl_nil]
  | cons c t ih =>
    rw [splitOnNl_cons]
    by_cases hc : c = '\n'
    · rw [if_pos hc]
      simp
    · rw [if_neg hc]
      cases h : splitOnNl t with
      | nil => exact absurd h ih
      | cons a as => simp

/-- Run decomposition of paragraph splitting. -/
lemma splitOnNl_eq : ∀ l : List Char,
    splitOnNl l = l.takeWhile (fun x => !(x == '\n')) ::
      (match l.dropWhile (fun x => !(x == '\n')) with
       | [] => []
       | _ :: t2 => splitOnNl t2) := by
  intro l
  induction l with
  | nil => rfl
  | cons c t ih =>
    rw [splitOnNl_cons]
    by_cases hc : c = '\n'
    · rw [if_pos hc]
      rw [List.takeWhile_cons, List.dropWhile_cons]
      rw [if_neg (by simp [hc]), if_neg (by simp [hc])]
    · rw [if_neg hc, ih]
      rw [List.takeWhile_cons, List.dropWhile_cons]
      rw [if_pos (by simp [hc]), if_pos (by simp [hc])]

/-- The word sequence of a text is the concatenation of the word sequences
of its paragraphs. -/
lemma pyWordsL_splitOnNl : ∀ l : List Char,
    pyWordsL l = (splitOnNl l).flatMap pyWordsL := by
  apply list_strong_ind
  intro l ih
  cases l with
  | nil => rfl
  | cons c t =>
    by_cases hc : c = '\n'
    · subst hc
      rw [splitOnNl_cons, if_pos rfl]
      rw [List.flatMap_cons]
      rw [pyWordsL_ws_cons (by decide) t]
      rw [ih t (by simp)]
      rfl
    · rw [splitOnNl_eq (c :: t)]
      rw [List.takeWhile_cons, if_pos (by simp [hc])]
      rw [List.dropWhile_cons, if_pos (by simp [hc])]
      have hsplit : t.takeWhile (fun x => !(x == '\n'))
          ++ t.dropWhile (fun x => !(x == '\n')) = t :=
        List.takeWhile_append_dropWhile _ _
      cases hd : t.dropWhile (fun x => !(x == '\n')) with
      | nil =>
        rw [hd, List.append_nil] at hsplit
        rw [List.flatMap_cons]
        simp only [List.flatMap_nil, List.append_nil]
        rw [hsplit]
      | cons d t2 =>
        have hdn : d = '\n' := by
          have := dropWhile_head_false _ _ _ hd
          simpa using this
        subst hdn
        rw [hd] at hsplit
        rw [List.flatMap_cons]
        have hlt : t2.length < (c :: t).length := by
          have h2 : (t.takeWhile (fun x => !(x == '\n'))
              ++ '\n' :: t2).length = t.length := by
            rw [hsplit]
          rw [List.length_append] at h2
          simp only [List.length_cons] at h2 ⊢
          omega
        rw [← ih t2 hlt]
        have hstruct : c :: t
            = (c :: t.takeWhile (fun x => !(x == '\n'))) ++ '\n' :: t2 := by
          rw [List.cons_append]
          congr 1
          exact hsplit.symm
        rw [hstruct, pyWordsL_append_sep (by decide)]

/-- Joining lines with single spaces concatenates their word sequences. -/
lemma pyWordsL_joinSp : ∀ ps : List (List Char),
    pyWordsL (joinSp ps) = ps.flatMap pyWordsL := by
  intro ps
  induction ps with
  | nil => rfl
  | cons p ps ih =>
    cases ps with
    | nil =>
      show pyWordsL p = [p].flatMap pyWordsL
      simp
    | cons q ps2 =>
      show pyWordsL (p ++ ' ' :: joinSp (q :: ps2)) = _
      rw [pyWordsL_append_sep (by decide), ih]
      rfl

/-! ## munge preserves the word sequence -/

lemma pyWordsL_replicate_space (X : List Char) :
    ∀ n, pyWordsL (List.replicate n ' ' ++ X) = pyWordsL X := by
  intro n
  induction n with
  | zero => rfl
  | succ n ih =>
    rw [List.replicate_succ, List.cons_append,
      pyWordsL_ws_cons (by decide), ih]

lemma takeWhile_map_wsid {f : Char → Char}
    (hcl : ∀ x, isPyWs (f x) = isPyWs x)
    (hid : ∀ x, isPyWs x = false → f x = x) :
    ∀ l : List Char,
      (l.map f).takeWhile (fun x => !isPyWs x)
        = l.takeWhile (fun x => !isPyWs x) := by
  intro l
  induction l with
  | nil => rfl
  | cons c t ih =>
    rw [List.map_cons, List.takeWhile_cons, List.takeWhile_cons]
    by_cases hc : isPyWs c = true
    · rw [if_neg (by simp [hcl, hc]), if_neg (by simp [hc])]
    · have hc' : isPyWs c = false := by simpa using hc
      rw [if_pos (by simp [hcl, hc']), if_pos (by simp [hc']), ih,
        hid c hc']

lemma dropWhile_map_wsid {f : Char → Char}
    (hcl : ∀ x, isPyWs (f x) = isPyWs x) :
    ∀ l : List Char,
      (l.map f).dropWhile (fun x => !isPyWs x)
        = (l.dropWhile (fun x => !isPyWs x)).map f := by
  intro l
  induction l with
  | nil => rfl
  | cons c t ih =>
    rw [List.map_cons, List.dropWhile_cons, List.dropWhile_cons]
    by_cases hc : isPyWs c = true
    · rw [if_neg (by simp [hcl, hc]), if_neg (by simp [hc]), List.map_cons]
    · have hc' : isPyWs c = false := by simpa using hc
      rw [if_pos (by simp [hcl, hc']), if_pos (by simp [hc']), ih]

/-- A whitespace-class-preserving map that fixes non-whitespace characters
preserves the word sequence. -/
lemma pyWordsL_map_wsid {f : Char → Char}
    (hcl : ∀ x, isPyWs (f x) = isPyWs x)
    (hid : ∀ x, isPyWs x = false → f x = x) :
    ∀ l : List Char, pyWordsL (l.map f) = pyWordsL l := by
  apply list_strong_ind
  intro l ih
  cases l with
  | nil => rfl
  | cons c t =>
    rw [List.map_cons]
    by_cases hc : isPyWs c = true
    · rw [pyWordsL_ws_cons (by rw [hcl]; exact hc),
        pyWordsL_ws_cons hc]
      exact ih t (by simp)
    · have hc' : isPyWs c = false := by simpa using hc
      rw [hid c hc']
      rw [pyWordsL_word_cons hc', pyWordsL_word_cons hc']
      rw [takeWhile_map_wsid hcl hid t, dropWhile_map_wsid hcl t]
      have hlen : (t.dropWhile (fun x => !isPyWs x)).length
          < (c :: t).length := by
        have h1 := (List.dropWhile_sublist (l := t)
          (p := fun x => !isPyWs x)).length_le
        simp only [List.length_cons]
        omega
      rw [ih _ (by simpa using hlen)]

lemma expandTabsGo_cons_other {c : Char} (hct : ¬ c = '\t')
    (hcn : ¬ (c = '\n' ∨ c = '\r')) (col : Nat) (t : List Char) :
    expandTabsGo col (c :: t) = c :: expandTabsGo (col + 1) t := by
  have h1 : expandTabsGo col (c :: t)
      = if c = '\t' then
          List.replicate (8 - col % 8) ' '
            ++ expandTabsGo (col + (8 - col % 8)) t
        else if c = '\n' || c = '\r' then c :: expandTabsGo 0 t
        else c :: expandTabsGo (col + 1) t := rfl
  rw [h1, if_neg hct, if_neg (by simpa using hcn)]

lemma takeWhile_expandTabs :
    ∀ (l : List Char) (col : Nat),
      (expandTabsGo col l).takeWhile (fun x => !isPyWs x)
        = l.takeWhile (fun x => !isPyWs x) := by
  intro l
  induction l with
  | nil => intro col; rfl
  | cons c t ih =>
    intro col
    unfold expandTabsGo
    by_cases hc : c = '\t'
    · rw [if_pos hc]
      have hn : 8 - col % 8 = (8 - col % 8 - 1) + 1 := by omega
      rw [hn, List.replicate_succ, List.cons_append,
        List.takeWhile_cons, List.takeWhile_cons]
      rw [if_neg (by decide), if_neg (by rw [hc]; decide)]
    · rw [if_neg hc]
      by_cases hnr : c = '\n' ∨ c = '\r'
      · rw [if_pos (by rcases hnr with h | h <;> simp [h])]
        rw [List.takeWhile_cons, List.takeWhile_cons]
        have hcw : isPyWs c = true := by
          rcases hnr with h | h <;> simp [h, isPyWs]
        rw [if_neg (by simp [hcw]), if_neg (by simp [hcw])]
      · rw [if_neg (by
          rcases Decidable.em (c = '\n') with h | h
          · exact absurd (Or.inl h) hnr
          · rcases Decidable.em (c = '\r') with h2 | h2
            · exact absurd (Or.inr h2) hnr
            · simp [h, h2])]
        rw [List.takeWhile_cons, List.takeWhile_cons]
        by_cases hcw : isPyWs c = true
        · rw [if_neg (by simp [hcw]), if_neg (by simp [hcw])]
        · have hc' : isPyWs c = false := by simpa using hcw
          rw [if_pos (by simp [hc']), if_pos (by simp [hc']), ih]

lemma dropWhile_expandTabs :
    ∀ (l : List Char) (col : Nat), ∃ col2,
      (expandTabsGo col l).dropWhile (fun x => !isPyWs x)
        = expandTabsGo col2 (l.dropWhile (fun x => !isPyWs x)) := by
  intro l
  induction l with
  | nil => intro col; exact ⟨0, rfl⟩
  | cons c t ih =>
    intro col
    by_cases hcw : isPyWs c = true
    · refine ⟨col, ?_⟩
      rw [List.dropWhile_cons, if_neg (by simp [hcw])]
      unfold expandTabsGo
      by_cases hc : c = '\t'
      · rw [if_pos hc]
        have hn : 8 - col % 8 = (8 - col % 8 - 1) + 1 := by omega
        rw [hn, List.replicate_succ, List.cons_append,
          List.dropWhile_cons, if_neg (by decide)]
      · rw [if_neg hc]
        by_cases hnr : c = '\n' ∨ c = '\r'
        · rw [if_pos (by rcases hnr with h | h <;> simp [h])]
          rw [List.dropWhile_cons, if_neg (by simp [hcw])]
        · rw [if_neg (by
            rcases Decidable.em (c = '\n') with h | h
            · exact absurd (Or.inl h) hnr
            · rcases Decidable.em (c = '\r') with h2 | h2
              · exact absurd (Or.inr h2) hnr
              · simp [h, h2])]
          rw [List.dropWhile_cons, if_neg (by simp [hcw])]
    · have hc' : isPyWs c = false := by simpa using hcw
      have hct : ¬ c = '\t' := by
        intro h
        rw [h] at hc'
        exact absurd hc' (by decide)
      have hcn : ¬ (c = '\n' ∨ c = '\r') := by
        intro h
        rcases h with h | h <;> (rw [h] at hc'; exact absurd hc' (by decide))
      have hexp : expandTabsGo col (c :: t)
          = c :: expandTabsGo (col + 1) t := expandTabsGo_cons_other hct hcn col t
      rw [hexp, List.dropWhile_cons, if_pos (by simp [hc']),
        List.dropWhile_cons, if_pos (by simp [hc'])]
      exact ih (col + 1)

lemma pyWordsL_expandTabs :
    ∀ (l : List Char) (col : Nat),
      pyWordsL (expandTabsGo col l) = pyWordsL l := by
  apply list_strong_ind
    (P := fun l => ∀ col, pyWordsL (expandTabsGo col l) = pyWordsL l)
  intro l ih
  cases l with
  | nil => intro col; rfl
  | cons c t =>
    intro col
    by_cases hcw : isPyWs c = true
    · rw [pyWordsL_ws_cons hcw]
      unfold expandTabsGo
      by_cases hc : c = '\t'
      · rw [if_pos hc, pyWordsL_replicate_space]
        exact ih t (by simp) _
      · rw [if_neg hc]
        by_cases hnr : c = '\n' ∨ c = '\r'
        · rw [if_pos (by rcases hnr with h | h <;> simp [h])]
          rw [pyWordsL_ws_cons hcw]
          exact ih t (by simp) _
        · rw [if_neg (by
            rcases Decidable.em (c = '\n') with h | h
            · exact absurd (Or.inl h) hnr
            · rcases Decidable.em (c = '\r') with h2 | h2
              · exact absurd (Or.inr h2) hnr
              · simp [h, h2])]
          rw [pyWordsL_ws_cons hcw]
          exact ih t (by simp) _
    · have hc' : isPyWs c = false := by simpa using hcw
      have hct : ¬ c = '\t' := by
        intro h
        rw [h] at hc'
        exact absurd hc' (by decide)
      have hcn : ¬ (c = '\n' ∨ c = '\r') := by
        intro h
        rcases h with h | h <;> (rw [h] at hc'; exact absurd hc' (by decide))
      have hexp : expandTabsGo col (c :: t)
          = c :: expandTabsGo (col + 1) t := expandTabsGo_cons_other hct hcn col t
      rw [hexp]
      rw [pyWordsL_word_cons hc', pyWordsL_word_cons hc']
      rw [takeWhile_expandTabs t (col + 1)]
      obtain ⟨col2, hcol2⟩ := dropWhile_expandTabs t (col + 1)
      rw [hcol2]
      have hlen : (t.dropWhile (fun x => !isPyWs x)).length
          < (c :: t).length := by
        have h1 := (List.dropWhile_sublist (l := t)
          (p := fun x => !isPyWs x)).length_le
        simp only [List.length_cons]
        omega
      rw [ih _ hlen col2]

/-- Munging preserves the word sequence. -/
lemma pyWordsL_munge (l : List Char) : pyWordsL (munge l) = pyWordsL l := by
  unfold munge
  rw [pyWordsL_map_wsid (f := fun c => if isPyWs c then ' ' else c)]
  · exact pyWordsL_expandTabs l 0
  · intro x
    by_cases hx : isPyWs x = true
    · rw [if_pos hx, hx]
      decide
    · rw [if_neg hx]
  · intro x hx
    rw [if_neg (by simp [hx])]

/-- A text with a non-whitespace character has a non-empty word sequence. -/
lemma pyWordsL_ne_nil : ∀ l : List Char, ∀ c ∈ l, isPyWs c = false →
    pyWordsL l ≠ [] := by
  intro l
  induction l with
  | nil => intro c hc; exact absurd hc (List.not_mem_nil c)
  | cons a t ih =>
    intro c hc hcw
    by_cases ha : isPyWs a = true
    · rw [pyWordsL_ws_cons ha]
      have hct : c ∈ t := by
        rcases List.mem_cons.mp hc with h | h
        · rw [h] at hcw
          rw [hcw] at ha
          exact absurd ha (by decide)
        · exact h
      exact ih c hct hcw
    · have ha' : isPyWs a = false := by simpa using ha
      rw [pyWordsL_word_cons ha']
      simp

/-! ## The wrap loop: invariants and word preservation -/

/-- The word chunks of a chunk list. -/
def wordChunks (cs : List (List Char)) : List (List Char) :=
  cs.filter (fun ch => !isWsChunk ch)

/-- Invariant of the chunk list inside `_wrap_chunks`: good pieces whose
word chunks fit the width. -/
def ChunksInv (w : Nat) (cs : List (List Char)) : Prop :=
  GoodPieces cs ∧ ∀ ch ∈ cs, isWsChunk ch = false → ch.length ≤ w

lemma wordChunks_nil : wordChunks [] = [] := rfl

lemma wordChunks_append (a b : List (List Char)) :
    wordChunks (a ++ b) = wordChunks a ++ wordChunks b :=
  List.filter_append _ _

lemma wordChunks_cons_ws {c : List Char} (h : isWsChunk c = true)
    (cs : List (List Char)) : wordChunks (c :: cs) = wordChunks cs := by
  unfold wordChunks
  rw [List.filter_cons, h]
  simp

lemma pyWordsL_eq_wordChunks (l : List Char) :
    pyWordsL l = wordChunks (splitChunks l) := rfl

lemma isWsChunk_take {c : List Char} (h : isWsChunk c = true) (n : Nat) :
    isWsChunk (c.take n) = true := by
  unfold isWsChunk at *
  rw [List.all_eq_true] at *
  intro x hx
  exact h x ((List.take_sublist n c).subset hx)

lemma isWsChunk_drop {c : List Char} (h : isWsChunk c = true) (n : Nat) :
    isWsChunk (c.drop n) = true := by
  unfold isWsChunk at *
  rw [List.all_eq_true] at *
  intro x hx
  exact h x ((List.drop_sublist n c).subset hx)

lemma fillGreedy_cons (w n : Nat) (c : List Char) (rest : List (List Char)) :
    fillGreedy w n (c :: rest)
      = if n + c.length ≤ w then
          (c :: (fillGreedy w (n + c.length) rest).1,
           (fillGreedy w (n + c.length) rest).2)
        else ([], c :: rest) := rfl

lemma fillGreedy_append (w : Nat) : ∀ (cs : List (List Char)) (n : Nat),
    (fillGreedy w n cs).1 ++ (fillGreedy w n cs).2 = cs := by
  intro cs
  induction cs with
  | nil => intro n; rfl
  | cons c rest ih =>
    intro n
    rw [fillGreedy_cons]
    by_cases h : n + c.length ≤ w
    · rw [if_pos h]
      show c :: ((fillGreedy w (n + c.length) rest).1
        ++ (fillGreedy w (n + c.length) rest).2) = c :: rest
      rw [ih (n + c.length)]
    · rw [if_neg h]
      rfl

lemma chunkMeasure_nil : chunkMeasure [] = 0 := rfl

lemma chunkMeasure_cons (c : List Char) (cs : List (List Char)) :
    chunkMeasure (c :: cs) = c.length + 1 + chunkMeasure cs := by
  unfold chunkMeasure
  rw [List.map_cons, List.sum_cons]

lemma chunkMeasure_append (a b : List (List Char)) :
    chunkMeasure (a ++ b) = chunkMeasure a + chunkMeasure b := by
  unfold chunkMeasure
  rw [List.map_append, List.sum_append]

lemma handleRest_nil (w : Nat) (taken : List (List Char)) :
    handleRest w taken [] = (taken, []) := rfl

lemma handleRest_cons (w : Nat) (taken : List (List Char)) (c : List Char)
    (rs : List (List Char)) :
    handleRest w taken (c :: rs)
      = if w < c.length then
          (taken ++ [c.take (if w < 1 then 1
              else w - (taken.map List.length).sum)],
           c.drop (if w < 1 then 1 else w - (taken.map List.length).sum)
             :: rs)
        else (taken, c :: rs) := rfl

/-- The reduced form of `wrapStep`. -/
lemma wrapStep_eq (w : Nat) (b : Bool) (cs : List (List Char)) :
    wrapStep w b cs
      = (if (dropLastWs (handleStep w (dropInitialWs b cs)).1).isEmpty
          then none
          else some (dropLastWs (handleStep w (dropInitialWs b cs)).1).flatten,
         (handleStep w (dropInitialWs b cs)).2) := rfl

lemma dropLastWs_concat (qs : List (List Char)) (c : List Char) :
    dropLastWs (qs ++ [c])
      = if isWsChunk c = true then qs else qs ++ [c] := by
  have h1 : dropLastWs (qs ++ [c])
      = match (qs ++ [c]).getLast? with
        | none => qs ++ [c]
        | some d => if isWsChunk d = true then (qs ++ [c]).dropLast
            else qs ++ [c] := rfl
  rw [h1, List.getLast?_concat]
  show (if isWsChunk c = true then (qs ++ [c]).dropLast else qs ++ [c]) = _
  rw [List.dropLast_concat]

lemma dropLastWs_concat_ws {qs : List (List Char)} {c : List Char}
    (h : isWsChunk c = true) : dropLastWs (qs ++ [c]) = qs := by
  rw [dropLastWs_concat, if_pos h]

lemma dropLastWs_wordChunks (ps : List (List Char)) :
    wordChunks (dropLastWs ps) = wordChunks ps := by
  rcases List.eq_nil_or_concat ps with h | ⟨qs, c, h⟩
  · subst h; rfl
  · rw [List.concat_eq_append] at h
    subst h
    rw [dropLastWs_concat]
    by_cases hws : isWsChunk c = true
    · rw [if_pos hws, wordChunks_append]
      have : wordChunks [c] = [] := by
        unfold wordChunks
        rw [List.filter_cons, hws]
        simp
      rw [this, List.append_nil]
    · rw [if_neg hws]

lemma goodPieces_append_left {a b : List (List Char)}
    (h : GoodPieces (a ++ b)) : GoodPieces a :=
  ⟨fun ch hch => h.1 ch (List.mem_append_left b hch),
   (List.chain'_append.mp h.2).1⟩

lemma goodPieces_append_right {a b : List (List Char)}
    (h : GoodPieces (a ++ b)) : GoodPieces b :=
  ⟨fun ch hch => h.1 ch (List.mem_append_right a hch),
   (List.chain'_append.mp h.2).2.1⟩

lemma goodPieces_dropLastWs {ps : List (List Char)} (h : GoodPieces ps) :
    GoodPieces (dropLastWs ps) := by
  rcases List.eq_nil_or_concat ps with h2 | ⟨qs, c, h2⟩
  · subst h2; exact h
  · rw [List.concat_eq_append] at h2
    subst h2
    rw [dropLastWs_concat]
    by_cases hws : isWsChunk c = true
    · rw [if_pos hws]
      exact goodPieces_append_left h
    · rw [if_neg hws]
      exact h

lemma chunksInv_of_parts {w : Nat} {cs : List (List Char)}
    (hinv : ChunksInv w cs) {a b : List (List Char)} (h : cs = a ++ b) :
    ChunksInv w b := by
  subst h
  exact ⟨goodPieces_append_right hinv.1,
    fun ch hch => hinv.2 ch (List.mem_append_right a hch)⟩

/-- The workhorse: one `handleStep` preserves the invariant on the
remaining chunks, moves word chunks onto the line in order, and the line
(after the trailing-whitespace drop) is a good piece list. -/
lemma handleStep_spec (w : Nat) (hw : 1 ≤ w) (cs1 : List (List Char))
    (hinv : ChunksInv w cs1) :
    ChunksInv w (handleStep w cs1).2 ∧
    wordChunks cs1 = wordChunks (handleStep w cs1).1
      ++ wordChunks (handleStep w cs1).2 ∧
    GoodPieces (dropLastWs (handleStep w cs1).1) := by
  have happ := fillGreedy_append w cs1 0
  have hgood1 : GoodPieces (fillGreedy w 0 cs1).1 :=
    goodPieces_append_left (happ ▸ hinv.1)
  have hwords : wordChunks cs1
      = wordChunks (fillGreedy w 0 cs1).1
        ++ wordChunks (fillGreedy w 0 cs1).2 := by
    rw [← wordChunks_append, happ]
  unfold handleStep
  cases hfg2 : (fillGreedy w 0 cs1).2 with
  | nil =>
    rw [handleRest_nil]
    refine ⟨⟨⟨fun ch hch => absurd hch (List.not_mem_nil ch), List.chain'_nil⟩,
      fun ch hch => absurd hch (List.not_mem_nil ch)⟩, ?_, ?_⟩
    · rw [hwords, hfg2]
    · exact goodPieces_dropLastWs hgood1
  | cons c rs =>
    have hinv2 : ChunksInv w (c :: rs) :=
      chunksInv_of_parts hinv (by rw [← hfg2]; exact happ.symm)
    rw [handleRest_cons]
    by_cases hcl : w < c.length
    · have hcws : isWsChunk c = true := by
        by_cases h : isWsChunk c = true
        · exact h
        · have hle := hinv2.2 c (by simp) (by simpa using h)
          omega
      rw [if_pos hcl]
      have hsl : (if w < 1 then 1
          else w - ((fillGreedy w 0 cs1).1.map List.length).sum) ≤ w := by
        by_cases h1 : w < 1
        · rw [if_pos h1]
          omega
        · rw [if_neg h1]
          omega
      set sl := if w < 1 then 1
        else w - ((fillGreedy w 0 cs1).1.map List.length).sum with hsldef
      have hdropne : c.drop sl ≠ [] := by
        intro h
        have := congrArg List.length h
        rw [List.length_drop] at this
        simp at this
        omega
      refine ⟨⟨⟨?_, ?_⟩, ?_⟩, ?_, ?_⟩
      · intro ch hch
        rcases List.mem_cons.mp hch with h | h
        · subst h
          refine ⟨hdropne, Or.inl ?_⟩
          intro x hx
          have := isWsChunk_drop hcws sl
          unfold isWsChunk at this
          rw [List.all_eq_true] at this
          exact this x hx
        · exact hinv2.1.1 ch (List.mem_cons_of_mem c h)
      · have hch2 := hinv2.1.2
        rw [List.chain'_cons'] at hch2 ⊢
        refine ⟨?_, hch2.2⟩
        intro y hy
        have := hch2.1 y hy
        rw [hcws] at this
        rw [isWsChunk_drop hcws sl]
        exact this
      · intro ch hch
        rcases List.mem_cons.mp hch with h | h
        · subst h
          intro hws
          rw [isWsChunk_drop hcws sl] at hws
          exact absurd hws (by simp)
        · exact hinv2.2 ch (List.mem_cons_of_mem c h)
      · rw [hwords, hfg2]
        rw [wordChunks_append, wordChunks_cons_ws hcws,
          wordChunks_cons_ws (isWsChunk_drop hcws sl)]
        have : wordChunks [c.take sl] = [] := by
          unfold wordChunks
          rw [List.filter_cons, isWsChunk_take hcws sl]
          simp
        rw [this, List.append_nil]
      · rw [dropLastWs_concat_ws (isWsChunk_take hcws sl)]
        exact hgood1
    · rw [if_neg hcl]
      refine ⟨hinv2, ?_, ?_⟩
      · rw [hwords, hfg2]
      · exact goodPieces_dropLastWs hgood1

lemma dropInitialWs_cons (b : Bool) (c : List Char)
    (rest : List (List Char)) :
    dropInitialWs b (c :: rest)
      = if (b && isWsChunk c) = true then rest else c :: rest := rfl

lemma dropInitialWs_spec (w : Nat) (b : Bool) (cs : List (List Char))
    (hinv : ChunksInv w cs) :
    ChunksInv w (dropInitialWs b cs) ∧
      wordChunks (dropInitialWs b cs) = wordChunks cs := by
  cases cs with
  | nil => exact ⟨hinv, rfl⟩
  | cons c rest =>
    rw [dropInitialWs_cons]
    by_cases h : (b && isWsChunk c) = true
    · rw [if_pos h]
      have hcws : isWsChunk c = true := by
        have h2 := h
        simp only [Bool.and_eq_true] at h2
        exact h2.2
      refine ⟨⟨⟨fun ch hch => hinv.1.1 ch (List.mem_cons_of_mem c hch),
        (List.chain'_cons'.mp hinv.1.2).2⟩,
        fun ch hch => hinv.2 ch (List.mem_cons_of_mem c hch)⟩, ?_⟩
      rw [wordChunks_cons_ws hcws]
    · rw [if_neg h]
      exact ⟨hinv, rfl⟩

/-- One `wrapStep` preserves the invariant and splits the word chunks
between the produced line and the remaining chunks. -/
lemma wrapStep_spec (w : Nat) (hw : 1 ≤ w) (b : Bool)
    (cs : List (List Char)) (hinv : ChunksInv w cs) :
    ChunksInv w (wrapStep w b cs).2 ∧
    wordChunks cs
      = (match (wrapStep w b cs).1 with
         | none => []
         | some line => pyWordsL line) ++ wordChunks (wrapStep w b cs).2 := by
  obtain ⟨hinv1, hw1⟩ := dropInitialWs_spec w b cs hinv
  obtain ⟨hA, hB, hC⟩ := handleStep_spec w hw (dropInitialWs b cs) hinv1
  rw [wrapStep_eq]
  refine ⟨hA, ?_⟩
  by_cases hemp :
      (dropLastWs (handleStep w (dropInitialWs b cs)).1).isEmpty = true
  · rw [if_pos hemp]
    have hempty : dropLastWs (handleStep w (dropInitialWs b cs)).1 = [] := by
      cases hll : dropLastWs (handleStep w (dropInitialWs b cs)).1 with
      | nil => rfl
      | cons x xs =>
        rw [hll] at hemp
        exact absurd hemp (by simp)
    have hwc : wordChunks (handleStep w (dropInitialWs b cs)).1 = [] := by
      rw [← dropLastWs_wordChunks, hempty]
      rfl
    calc wordChunks cs = wordChunks (dropInitialWs b cs) := hw1.symm
    _ = wordChunks (handleStep w (dropInitialWs b cs)).1
        ++ wordChunks (handleStep w (dropInitialWs b cs)).2 := hB
    _ = _ := by rw [hwc]
  · rw [if_neg hemp]
    have hwc : pyWordsL
        (dropLastWs (handleStep w (dropInitialWs b cs)).1).flatten
        = wordChunks (handleStep w (dropInitialWs b cs)).1 := by
      rw [pyWordsL_flatten_pieces _ hC]
      show wordChunks (dropLastWs (handleStep w (dropInitialWs b cs)).1) = _
      rw [dropLastWs_wordChunks]
    calc wordChunks cs = wordChunks (dropInitialWs b cs) := hw1.symm
    _ = wordChunks (handleStep w (dropInitialWs b cs)).1
        ++ wordChunks (handleStep w (dropInitialWs b cs)).2 := hB
    _ = _ := by rw [← hwc]

/-! ## Termination measure of the wrap loop -/

lemma handleRest_measure_le (w : Nat) (taken : List (List Char)) :
    ∀ rest2, chunkMeasure (handleRest w taken rest2).2 ≤ chunkMeasure rest2 := by
  intro rest2
  cases rest2 with
  | nil => exact Nat.zero_le _
  | cons c rs =>
    rw [handleRest_cons]
    by_cases hcl : w < c.length
    · rw [if_pos hcl]
      dsimp only
      rw [chunkMeasure_cons, chunkMeasure_cons, List.length_drop]
      omega
    · rw [if_neg hcl]

lemma handleStep_measure_le (w : Nat) (cs1 : List (List Char)) :
    chunkMeasure (handleStep w cs1).2 ≤ chunkMeasure cs1 := by
  have h1 := handleRest_measure_le w (fillGreedy w 0 cs1).1
    (fillGreedy w 0 cs1).2
  have h2 : chunkMeasure (fillGreedy w 0 cs1).2 ≤ chunkMeasure cs1 := by
    have h3 := congrArg chunkMeasure (fillGreedy_append w cs1 0)
    rw [chunkMeasure_append] at h3
    omega
  unfold handleStep
  omega

lemma wrapStep_measure_lt (w : Nat) (b : Bool) (cs : List (List Char))
    (hne : cs ≠ []) :
    chunkMeasure (wrapStep w b cs).2 < chunkMeasure cs := by
  rw [wrapStep_eq]
  show chunkMeasure (handleStep w (dropInitialWs b cs)).2 < chunkMeasure cs
  cases cs with
  | nil => exact absurd rfl hne
  | cons c rest =>
    rw [dropInitialWs_cons]
    by_cases hdrop : (b && isWsChunk c) = true
    · rw [if_pos hdrop]
      have h1 := handleStep_measure_le w rest
      rw [chunkMeasure_cons]
      omega
    · rw [if_neg hdrop]
      unfold handleStep
      by_cases hfit : 0 + c.length ≤ w
      · have hfg := fillGreedy_cons w 0 c rest
        rw [if_pos hfit] at hfg
        have h1 := handleRest_measure_le w
          (fillGreedy w 0 (c :: rest)).1 (fillGreedy w 0 (c :: rest)).2
        have h2 : chunkMeasure (fillGreedy w 0 (c :: rest)).2
            ≤ chunkMeasure rest := by
          have h3 := congrArg chunkMeasure
            (fillGreedy_append w rest (0 + c.length))
          rw [chunkMeasure_append] at h3
          have h4 : (fillGreedy w 0 (c :: rest)).2
              = (fillGreedy w (0 + c.length) rest).2 := by
            rw [hfg]
          rw [h4]
          omega
        rw [chunkMeasure_cons]
        omega
      · have hfg := fillGreedy_cons w 0 c rest
        rw [if_neg hfit] at hfg
        have hcl : w < c.length := by omega
        rw [hfg, handleRest_cons, if_pos hcl]
        dsimp only
        rw [chunkMeasure_cons, chunkMeasure_cons, List.length_drop]
        have hsl1 : 1 ≤ (if w < 1 then 1
            else w - ((([] : List (List Char)).map List.length).sum)) := by
          by_cases h1 : w < 1
          · rw [if_pos h1]
          · rw [if_neg h1]
            simp only [List.map_nil, List.sum_nil, Nat.sub_zero]
            omega
        omega

/-! ## The wrap loop preserves the word sequence -/

lemma wrapChunksFuel_cons_eq (w : Nat) (fuel : Nat) (b : Bool)
    (c : List Char) (cs : List (List Char)) :
    wrapChunksFuel w (fuel + 1) b (c :: cs)
      = match (wrapStep w b (c :: cs)).1 with
        | some line =>
            line :: wrapChunksFuel w fuel true (wrapStep w b (c :: cs)).2
        | none => wrapChunksFuel w fuel b (wrapStep w b (c :: cs)).2 := rfl

lemma wrapChunksFuel_cons_some {w fuel : Nat} {c : List Char}
    {cs : List (List Char)} {line : List Char} {b : Bool}
    (h : (wrapStep w b (c :: cs)).1 = some line) :
    wrapChunksFuel w (fuel + 1) b (c :: cs)
      = line :: wrapChunksFuel w fuel true (wrapStep w b (c :: cs)).2 := by
  rw [wrapChunksFuel_cons_eq, h]

lemma wrapChunksFuel_cons_none {w fuel : Nat} {c : List Char}
    {cs : List (List Char)} {b : Bool}
    (h : (wrapStep w b (c :: cs)).1 = none) :
    wrapChunksFuel w (fuel + 1) b (c :: cs)
      = wrapChunksFuel w fuel b (wrapStep w b (c :: cs)).2 := by
  rw [wrapChunksFuel_cons_eq, h]

lemma wrapChunksFuel_words (w : Nat) (hw : 1 ≤ w) :
    ∀ (fuel : Nat) (b : Bool) (cs : List (List Char)), ChunksInv w cs →
      chunkMeasure cs < fuel →
      (wrapChunksFuel w fuel b cs).flatMap pyWordsL = wordChunks cs := by
  intro fuel
  induction fuel with
  | zero => intro b cs _ h; omega
  | succ fuel ih =>
    intro b cs hinv hm
    cases cs with
    | nil => rfl
    | cons c cs' =>
      have hspec := wrapStep_spec w hw b (c :: cs') hinv
      have hmlt := wrapStep_measure_lt w b (c :: cs') (by simp)
      cases hs1 : (wrapStep w b (c :: cs')).1 with
      | some line =>
        rw [wrapChunksFuel_cons_some hs1]
        rw [List.flatMap_cons]
        rw [ih true _ hspec.1 (by omega)]
        rw [hspec.2, hs1]
      | none =>
        rw [wrapChunksFuel_cons_none hs1]
        rw [ih b _ hspec.1 (by omega)]
        rw [hspec.2, hs1]
        rfl

/-- The wrap loop preserves the word sequence for a positive width when
every word chunk fits the width. -/
lemma wrapChunks_words (w : Nat) (hw : 1 ≤ w) (cs : List (List Char))
    (hinv : ChunksInv w cs) :
    (wrapChunks w cs).flatMap pyWordsL = wordChunks cs := by
  unfold wrapChunks
  exact wrapChunksFuel_words w hw (chunkMeasure cs + 1) false cs hinv
    (by omega)

/-! ## wrap_text: assembling the pieces -/

/-- For non-empty text and a positive character budget, `wrap_text`
succeeds and computes the per-paragraph wrap (the per-line visual check
appends the line unchanged on both branches). -/
lemma wrap_text_some (text : String) (font : Font) (mw : Nat)
    (h1 : text ≠ "") (h4 : 1 ≤ maxCharsFor mw (font.bbox2 "x")) :
    wrap_text text font mw
      = some ((splitOnNl text.data).flatMap (fun p =>
          (wrapChunks (maxCharsFor mw (font.bbox2 "x"))
            (splitChunks (munge p))).map String.mk)) := by
  have havg : ¬ font.bbox2 "x" = 0 := by
    intro h
    rw [h] at h4
    unfold maxCharsFor at h4
    simp at h4
  unfold wrap_text
  rw [if_neg h1, if_neg havg, if_neg (by omega)]
  simp only [ite_self]

lemma chunksInv_splitChunks_munge (w : Nat) (p : List Char)
    (hbound : ∀ wd ∈ pyWordsL p, wd.length ≤ w) :
    ChunksInv w (splitChunks (munge p)) := by
  refine ⟨splitChunks_pieces (munge p), ?_⟩
  intro ch hch hws
  have hmem : ch ∈ pyWordsL (munge p) := by
    unfold pyWordsL
    exact List.mem_filter.mpr ⟨hch, by simp [hws]⟩
  rw [pyWordsL_munge] at hmem
  exact hbound ch hmem

lemma flatMap_map_mk (X : List (List Char)) :
    (X.map String.mk).flatMap (fun s => pyWordsL s.data)
      = X.flatMap pyWordsL := by
  induction X with
  | nil => rfl
  | cons x xs ih =>
    rw [List.map_cons, List.flatMap_cons, List.flatMap_cons, ih]

/-- Word preservation across all paragraphs. -/
lemma wrap_all_paragraphs_words (w : Nat) (hw : 1 ≤ w) :
    ∀ ps : List (List Char),
      (∀ p ∈ ps, ∀ wd ∈ pyWordsL p, wd.length ≤ w) →
      ((ps.flatMap (fun p =>
        (wrapChunks w (splitChunks (munge p))).map String.mk)).flatMap
          (fun s => pyWordsL s.data))
        = ps.flatMap pyWordsL := by
  intro ps
  induction ps with
  | nil => intro _; rfl
  | cons p ps ih =>
    intro hb
    rw [List.flatMap_cons, List.flatMap_cons, List.flatMap_append]
    rw [ih (fun q hq => hb q (List.mem_cons_of_mem p hq))]
    congr 1
    rw [flatMap_map_mk,
      wrapChunks_words w hw _ (chunksInv_splitChunks_munge w p
        (hb p (by simp)))]
    rw [← pyWordsL_eq_wordChunks, pyWordsL_munge]

/-! ## The single-long-word behaviour (claim C2) -/

lemma wrapChunksFuel_nil (w : Nat) : ∀ (fuel : Nat) (b : Bool),
    wrapChunksFuel w fuel b [] = [] := by
  intro fuel b
  cases fuel with
  | zero => rfl
  | succ fuel => rfl

lemma splitOnNl_no_nl : ∀ {l : List Char}, (∀ c ∈ l, ¬ c = '\n') →
    splitOnNl l = [l] := by
  intro l
  induction l with
  | nil => intro _; rfl
  | cons c t ih =>
    intro h
    rw [splitOnNl_cons, if_neg (h c (by simp))]
    rw [ih (fun d hd => h d (List.mem_cons_of_mem c hd))]

lemma expandTabsGo_cons_eq (col : Nat) (c : Char) (t : List Char) :
    expandTabsGo col (c :: t)
      = if c = '\t' then
          List.replicate (8 - col % 8) ' '
            ++ expandTabsGo (col + (8 - col % 8)) t
        else if c = '\n' || c = '\r' then c :: expandTabsGo 0 t
        else c :: expandTabsGo (col + 1) t := rfl

lemma expandTabsGo_no_tab : ∀ {l : List Char}, (∀ c ∈ l, ¬ c = '\t') →
    ∀ col, expandTabsGo col l = l := by
  intro l
  induction l with
  | nil => intro _ col; rfl
  | cons c t ih =>
    intro h col
    rw [expandTabsGo_cons_eq, if_neg (h c (by simp))]
    by_cases hnr : (c = '\n' || c = '\r') = true
    · rw [if_pos hnr, ih (fun d hd => h d (List.mem_cons_of_mem c hd)) 0]
    · rw [if_neg hnr, ih (fun d hd => h d (List.mem_cons_of_mem c hd))
        (col + 1)]

lemma munge_eq_self {l : List Char} (h : ∀ c ∈ l, isPyWs c = false) :
    munge l = l := by
  unfold munge
  have htab : ∀ c ∈ l, ¬ c = '\t' := by
    intro c hc he
    have h2 := h c hc
    rw [he] at h2
    exact absurd h2 (by decide)
  rw [expandTabsGo_no_tab htab 0]
  have hmap : ∀ c ∈ l, (if isPyWs c then ' ' else c) = c := by
    intro c hc
    rw [if_neg (by simp [h c hc])]
  calc l.map (fun c => if isPyWs c then ' ' else c)
      = l.map id := List.map_congr_left hmap
  _ = l := List.map_id l

lemma splitChunks_single_word {l : List Char} (hne : l ≠ [])
    (h : ∀ c ∈ l, isPyWs c = false) : splitChunks l = [l] := by
  cases l with
  | nil => exact absurd rfl hne
  | cons c t =>
    rw [splitChunks_run]
    have hall : ∀ x ∈ t, (fun x => isPyWs x == isPyWs c) x = true := by
      intro x hx
      simp [h x (List.mem_cons_of_mem c hx), h c (by simp)]
    have htw : t.takeWhile (fun x => isPyWs x == isPyWs c) = t := by
      have h2 := takeWhile_append_all t [] hall
      simpa using h2
    have hdw : t.dropWhile (fun x => isPyWs x == isPyWs c) = [] := by
      have h2 := dropWhile_append_all t [] hall
      simpa using h2
    rw [htw, hdw]
    rfl

lemma isWsChunk_false_of_word {l : List Char} (hne : l ≠ [])
    (h : ∀ c ∈ l, isPyWs c = false) : isWsChunk l = false :=
  isWsChunk_of_class hne h

/-- The wrap loop on a single non-whitespace chunk: the chunk is emitted
whole when it fits, else broken into budget-sized pieces whose
concatenation is the chunk. -/
lemma wrapFuel_single_word (w : Nat) (hw : 1 ≤ w) :
    ∀ (fuel : Nat) (l : List Char) (b : Bool), l ≠ [] →
      (∀ x ∈ l, isPyWs x = false) → chunkMeasure [l] < fuel →
      (wrapChunksFuel w fuel b [l]).flatten = l ∧
      (∀ L ∈ wrapChunksFuel w fuel b [l], L ≠ [] ∧ L.length ≤ w) := by
  intro fuel
  induction fuel with
  | zero =>
    intro l b _ _ h
    omega
  | succ fuel ih =>
    intro l b hne hnw hm
    have hwsl : isWsChunk l = false := isWsChunk_false_of_word hne hnw
    have hdi : dropInitialWs b [l] = [l] := by
      rw [dropInitialWs_cons, if_neg (by simp [hwsl])]
    have hlen_pos : 1 ≤ l.length := by
      cases l with
      | nil => exact absurd rfl hne
      | cons x xs => simp
    by_cases hfit : l.length ≤ w
    · have hfill : fillGreedy w 0 [l] = ([l], []) := by
        rw [fillGreedy_cons, if_pos (by omega)]
        rfl
      have hline : dropLastWs [l] = [l] := by
        have h2 := dropLastWs_concat ([] : List (List Char)) l
        simp only [List.nil_append] at h2
        rw [h2, if_neg (by simp [hwsl])]
      have hstep : wrapStep w b [l] = (some l, []) := by
        rw [wrapStep_eq, hdi]
        unfold handleStep
        rw [hfill]
        dsimp only
        rw [handleRest_nil]
        dsimp only
        rw [hline]
        simp
      have h1 : (wrapStep w b [l]).1 = some l := by rw [hstep]
      have h2 : (wrapStep w b [l]).2 = [] := by rw [hstep]
      rw [wrapChunksFuel_cons_some h1, h2, wrapChunksFuel_nil]
      refine ⟨by simp, ?_⟩
      intro L hL
      rcases List.mem_cons.mp hL with h3 | h3
      · subst h3
        exact ⟨hne, hfit⟩
      · exact absurd h3 (List.not_mem_nil L)
    · have hlcl : w < l.length := by omega
      have hfill : fillGreedy w 0 [l] = ([], [l]) := by
        rw [fillGreedy_cons, if_neg (by omega)]
      have htake_ne : l.take w ≠ [] := by
        intro h0
        have h2 := congrArg List.length h0
        rw [List.length_take] at h2
        simp only [List.length_nil] at h2
        omega
      have hdrop_ne : l.drop w ≠ [] := by
        intro h0
        have h2 := congrArg List.length h0
        rw [List.length_drop] at h2
        simp only [List.length_nil] at h2
        omega
      have htkws : isWsChunk (l.take w) = false :=
        isWsChunk_false_of_word htake_ne
          (fun x hx => hnw x ((List.take_sublist w l).subset hx))
      have hstep : wrapStep w b [l] = (some (l.take w), [l.drop w]) := by
        rw [wrapStep_eq, hdi]
        unfold handleStep
        rw [hfill]
        dsimp only
        rw [handleRest_cons, if_pos hlcl]
        dsimp only
        rw [if_neg (by omega : ¬ w < 1)]
        simp only [List.map_nil, List.sum_nil, Nat.sub_zero,
          List.nil_append]
        have hline : dropLastWs [l.take w] = [l.take w] := by
          have h2 := dropLastWs_concat ([] : List (List Char)) (l.take w)
          simp only [List.nil_append] at h2
          rw [h2, if_neg (by simp [htkws])]
        rw [hline]
        simp
      have h1 : (wrapStep w b [l]).1 = some (l.take w) := by rw [hstep]
      have h2 : (wrapStep w b [l]).2 = [l.drop w] := by rw [hstep]
      rw [wrapChunksFuel_cons_some h1, h2]
      have hmrec : chunkMeasure [l.drop w] < fuel := by
        have hm2 : l.length + 1 < fuel + 1 := by
          have h3 : chunkMeasure [l] = l.length + 1 := by
            rw [chunkMeasure_cons, chunkMeasure_nil]
          omega
        have h4 : chunkMeasure [l.drop w] = l.length - w + 1 := by
          rw [chunkMeasure_cons, chunkMeasure_nil, List.length_drop]
        omega
      obtain ⟨ihfl, ihlen⟩ := ih (l.drop w) true hdrop_ne
        (fun x hx => hnw x ((List.drop_sublist w l).subset hx)) hmrec
      constructor
      · rw [List.flatten_cons, ihfl, List.take_append_drop]
      · intro L hL
        rcases List.mem_cons.mp hL with h3 | h3
        · subst h3
          refine ⟨htake_ne, ?_⟩
          rw [List.length_take]
          omega
        · exact ihlen L h3

lemma flatMap_map_data (L : List String) :
    (L.map String.data).flatMap pyWordsL
      = L.flatMap (fun s => pyWordsL s.data) := by
  induction L with
  | nil => rfl
  | cons s L ih =>
    rw [List.map_cons, List.flatMap_cons, List.flatMap_cons, ih]

/-! ## Claims C1 and C2 -/

/-- C1 (amended): for non-empty, hyphen-free text containing at least one
non-whitespace character, when the character budget is positive and every
word fits it, `wrap_text` succeeds, returns a non-empty line list, and
joining the lines with single spaces reconstructs the word sequence of the
input exactly (no word lost, none duplicated).  The no-hyphen hypothesis
matches the modelling scope of `textwrap` (see the header); the word-size
hypothesis is forced by the counterexample: `textwrap`'s default
`break_long_words=True` splits oversized words mid-word. -/
theorem wrap_text_reconstructs_words (t : String) (font : Font) (mw : Nat)
    (h1 : t ≠ "")
    (_h2 : '-' ∉ t.data)
    (h3 : ∃ c ∈ t.data, isPyWs c = false)
    (h4 : 1 ≤ maxCharsFor mw (font.bbox2 "x"))
    (h5 : ∀ wd ∈ pyWordsL t.data,
      wd.length ≤ maxCharsFor mw (font.bbox2 "x")) :
    (wrap_text t font mw).isSome = true ∧
    (wrap_text t font mw).getD [] ≠ [] ∧
    pyWordsS (joinLinesSp ((wrap_text t font mw).getD []))
      = pyWordsS t := by
  have hsome := wrap_text_some t font mw h1 h4
  set w := maxCharsFor mw (font.bbox2 "x") with hwdef
  set L := (splitOnNl t.data).flatMap (fun p =>
    (wrapChunks w (splitChunks (munge p))).map String.mk) with hLdef
  have hbounds : ∀ p ∈ splitOnNl t.data, ∀ wd ∈ pyWordsL p,
      wd.length ≤ w := by
    intro p hp wd hwd
    apply h5
    rw [pyWordsL_splitOnNl]
    exact List.mem_flatMap.mpr ⟨p, hp, hwd⟩
  have hwordsL : L.flatMap (fun s => pyWordsL s.data) = pyWordsL t.data := by
    rw [hLdef, wrap_all_paragraphs_words w h4 (splitOnNl t.data) hbounds,
      ← pyWordsL_splitOnNl]
  have hwne : pyWordsL t.data ≠ [] := by
    obtain ⟨c, hc, hcw⟩ := h3
    exact pyWordsL_ne_nil t.data c hc hcw
  rw [hsome]
  refine ⟨rfl, ?_, ?_⟩
  · show L ≠ []
    intro h0
    apply hwne
    rw [← hwordsL, h0]
    rfl
  · show pyWordsS (joinLinesSp L) = pyWordsS t
    unfold pyWordsS joinLinesSp
    have hdata : (String.mk (joinSp (L.map String.data))).data
        = joinSp (L.map String.data) := rfl
    rw [hdata, pyWordsL_joinSp]
    congr 1
    rw [flatMap_map_data, hwordsL]

/-- Witness for C1 (amended) at `"ab cd"`, a 10-pixel monospace font and
max width 30 (budget 3): lines `["ab", "cd"]`, words preserved. -/
theorem wrap_text_reconstructs_words_witness :
    (wrap_text "ab cd" exFont 30).isSome = true ∧
    (wrap_text "ab cd" exFont 30).getD [] ≠ [] ∧
    pyWordsS (joinLinesSp ((wrap_text "ab cd" exFont 30).getD []))
      = pyWordsS "ab cd" :=
  wrap_text_reconstructs_words "ab cd" exFont 30 (by decide) (by decide)
    (by decide) (by decide) (by decide)

/-- Counterexample to C1 as stated: the single word `"abcdef"` at budget 3
(10-pixel monospace, max width 30) is wrapped to `["abc", "def"]`; joining
with a space yields the word sequence `["abc", "def"]`, not `["abcdef"]` —
the word is lost and two new ones appear. -/
theorem wrap_text_words_cex :
    wrap_text "abcdef" exFont 30 = some ["abc", "def"] ∧
      pyWordsS (joinLinesSp ["abc", "def"]) ≠ pyWordsS "abcdef" := by
  decide

/-- C2 (amended): a single word (non-empty, all non-whitespace,
hyphen-free) whose length exceeds the positive character budget is NOT kept
whole: `textwrap`'s `break_long_words=True` splits it mid-word into at
least two non-empty lines of at most budget size whose concatenation is the
word. -/
theorem wrap_text_long_word_broken (word : String) (font : Font) (mw : Nat)
    (h1 : word ≠ "")
    (h2 : ∀ c ∈ word.data, isPyWs c = false)
    (_h3 : '-' ∉ word.data)
    (h4 : 1 ≤ maxCharsFor mw (font.bbox2 "x"))
    (h5 : maxCharsFor mw (font.bbox2 "x") < word.length) :
    (wrap_text word font mw).isSome = true ∧
    2 ≤ ((wrap_text word font mw).getD []).length ∧
    (((wrap_text word font mw).getD []).map String.data).flatten
      = word.data ∧
    ∀ L ∈ ((wrap_text word font mw).getD []).map String.data,
      L ≠ [] ∧ L.length ≤ maxCharsFor mw (font.bbox2 "x") := by
  have hsome := wrap_text_some word font mw h1 h4
  set w := maxCharsFor mw (font.bbox2 "x") with hwdef
  have hdata_ne : word.data ≠ [] := by
    intro h0
    exact h1 (congrArg String.mk h0)
  have hnl : splitOnNl word.data = [word.data] := splitOnNl_no_nl (by
    intro c hc he
    have h6 := h2 c hc
    rw [he] at h6
    exact absurd h6 (by decide))
  have hmg : munge word.data = word.data := munge_eq_self h2
  have hsc : splitChunks word.data = [word.data] :=
    splitChunks_single_word hdata_ne h2
  have hlenw : word.length = word.data.length := rfl
  have hfuel := wrapFuel_single_word w h4 (chunkMeasure [word.data] + 1)
    word.data false hdata_ne h2 (by omega)
  have hwc : wrapChunks w [word.data]
      = wrapChunksFuel w (chunkMeasure [word.data] + 1) false [word.data] :=
    rfl
  have hL : (splitOnNl word.data).flatMap (fun p =>
      (wrapChunks w (splitChunks (munge p))).map String.mk)
      = (wrapChunks w [word.data]).map String.mk := by
    rw [hnl, List.flatMap_cons, List.flatMap_nil, List.append_nil, hmg, hsc]
  rw [hsome, hL]
  set lines := wrapChunks w [word.data] with hlines
  have hflat : lines.flatten = word.data := by
    rw [hwc]
    exact hfuel.1
  have hbound : ∀ L ∈ lines, L ≠ [] ∧ L.length ≤ w := by
    rw [hwc]
    exact hfuel.2
  have hmapdata : (lines.map String.mk).map String.data = lines := by
    rw [List.map_map]
    have hcomp : (String.data ∘ String.mk) = id := rfl
    rw [hcomp, List.map_id]
  have hlen2 : 2 ≤ lines.length := by
    cases hcase : lines with
    | nil =>
      rw [hcase] at hflat
      exact absurd hflat.symm hdata_ne
    | cons L rest =>
      cases hrest : rest with
      | nil =>
        rw [hrest] at hcase
        rw [hcase] at hflat hbound
        simp only [List.flatten_cons, List.flatten_nil,
          List.append_nil] at hflat
        have h7 := (hbound L (by simp)).2
        rw [hflat] at h7
        omega
      | cons q qs => simp [hcase, hrest]
  refine ⟨rfl, ?_, ?_, ?_⟩
  · show 2 ≤ (lines.map String.mk).length
    rw [List.length_map]
    exact hlen2
  · show ((lines.map String.mk).map String.data).flatten = word.data
    rw [hmapdata, hflat]
  · intro L hL
    have hL2 : L ∈ (lines.map String.mk).map String.data := hL
    rw [hmapdata] at hL2
    exact hbound L hL2

/-- Witness for C2 (amended): `"abcdefg"` at budget 3 wraps to 3 lines
whose concatenation is the word. -/
theorem wrap_text_long_word_broken_witness :
    (wrap_text "abcdefg" exFont 30).isSome = true ∧
    2 ≤ ((wrap_text "abcdefg" exFont 30).getD []).length ∧
    (((wrap_text "abcdefg" exFont 30).getD []).map String.data).flatten
      = "abcdefg".data := by
  have h := wrap_text_long_word_broken "abcdefg" exFont 30 (by decide)
    (by decide) (by decide) (by decide) (by decide)
  exact ⟨h.1, h.2.1, h.2.2.1⟩

/-- Counterexample to C2 as stated: the word `"abcdef"` renders 60 pixels
wide (> max width 30) and is longer than the budget 3, yet `wrap_text`
returns two lines `["abc", "def"]` — the word is broken mid-word, not kept
whole as one line. -/
theorem wrap_text_long_word_cex :
    exFont.bbox2 "abcdef" = 60 ∧ (30 : Nat) < 60 ∧
      maxCharsFor 30 (exFont.bbox2 "x") = 3 ∧
      (3 : Nat) < ("abcdef" : String).length ∧
      wrap_text "abcdef" exFont 30 = some ["abc", "def"] ∧
      (["abc", "def"] : List String) ≠ ["abcdef"] := by
  decide

end Flashcards
